import Mathlib

/-!
# njump: script classification, paragraph resolution, quote expansion, image crop and mask

A shallow embedding of `image_utils.go` and of two fragments of `data.go` (the relay
filter of `grabData` and the media type of file-metadata events).

* Runes (`int32`) are `Int`; slice indices and counters are `Nat`.
* Go strings are byte sequences (`List UInt8`); slicing `s[a:b]` and indexing are
  checked, and a failed bounds check (a Go panic) is the result `none`.
* Package-level state read by a function (`scriptRanges`, `fontMap`, the
  language detector, the reference matcher, `BLOCK`, `getEvent`, `excludedRelays`,
  `trimProtocol`) is passed in as an explicit argument.
* An image is its bounds and its `At` function. For `cropToSquare` colours are taken
  in the RGBA colour model; for `roundImage` the source gives 16-bit colours, the
  mask drawn by the library `gg` is an argument, and `draw.DrawMask` follows
  `image/draw` in `uint32` arithmetic.
-/

namespace Njump

/-! ## Scripts and the range table -/

/-- Script tags of `language.Script`: the eleven tags named by `supportedScripts`
and every other tag of the library. -/
inductive Script where
  | Unknown | Hiragana | Katakana | Hebrew | Thai | Arabic
  | Devanagari | Bengali | Javanese | Han | Hangul
  | Other (tag : Nat)
  deriving DecidableEq, Repr

/-- The constant `nSupportedScripts`. -/
def nSupportedScripts : Nat := 11

/-- The array `supportedScripts`, in source order. -/
def supportedScripts : List Script :=
  [ Script.Unknown, Script.Hiragana, Script.Katakana, Script.Hebrew, Script.Thai,
    Script.Arabic, Script.Devanagari, Script.Bengali, Script.Javanese, Script.Han,
    Script.Hangul ]

/-- An element of the library table `language.ScriptRanges`. -/
structure LanguageScriptRange where
  Start : Int
  End : Int
  Script : Script
  deriving DecidableEq, Repr

/-- The struct `ScriptRange`. -/
structure ScriptRange where
  Start : Int
  End : Int
  Pos : Nat
  Script : Script
  deriving DecidableEq, Repr

/-- The inner loop of the table construction: the entries of the library table
whose script is `script`, in table order, each tagged with `ssi`. -/
def rangesOfScript (languageScriptRanges : List LanguageScriptRange) (ssi : Nat)
    (script : Script) : List ScriptRange :=
  (languageScriptRanges.filter (fun srange => decide (srange.Script = script))).map
    (fun srange =>
      { Start := srange.Start, End := srange.End, Script := srange.Script, Pos := ssi })

/-- The outer loop over `supportedScripts` starting at index `ssi`. -/
def appendScripts (languageScriptRanges : List LanguageScriptRange) :
    Nat → List Script → List ScriptRange
  | _, [] => []
  | ssi, script :: rest =>
    rangesOfScript languageScriptRanges ssi script
      ++ appendScripts languageScriptRanges (ssi + 1) rest

/-- The "script detector material" part of `initializeImageDrawingStuff`: the value
of `scriptRanges` after startup, given the library table `language.ScriptRanges`. -/
def initializeImageDrawingStuff (languageScriptRanges : List LanguageScriptRange) :
    List ScriptRange :=
  appendScripts languageScriptRanges 0 supportedScripts

/-- The loop of `lookupScript` with the loop variables `i`, `j`. The first argument
bounds the number of iterations; `none` is fuel exhaustion or an index out of range. -/
def lookupScriptLoop (scriptRanges : List ScriptRange) (r : Int) :
    Nat → Nat → Nat → Option Nat
  | 0, _, _ => none
  | fuel + 1, i, j =>
    if i < j then
      let h := i + (j - i) / 2
      match scriptRanges[h]? with
      | none => none
      | some entry =>
        if r < entry.Start then lookupScriptLoop scriptRanges r fuel i h
        else if entry.End < r then lookupScriptLoop scriptRanges r fuel (h + 1) j
        else some h
    else some 0

/-- The function `lookupScript`. -/
def lookupScript (scriptRanges : List ScriptRange) (r : Int) : Option Nat :=
  lookupScriptLoop scriptRanges r (scriptRanges.length + 1) 0 scriptRanges.length

/-- A table is sorted ascending by `Start`. -/
def SortedByStart (scriptRanges : List ScriptRange) : Prop :=
  scriptRanges.Pairwise (fun a b => a.Start ≤ b.Start)

instance (scriptRanges : List ScriptRange) : Decidable (SortedByStart scriptRanges) := by
  unfold SortedByStart; infer_instance

/-- A library table is well formed: `Start ≤ End` in every entry, and the entries
are in ascending order and pairwise disjoint. -/
def WellFormedSource (languageScriptRanges : List LanguageScriptRange) : Prop :=
  (∀ e ∈ languageScriptRanges, e.Start ≤ e.End) ∧
    languageScriptRanges.Pairwise (fun a b => a.End < b.Start)

instance (l : List LanguageScriptRange) : Decidable (WellFormedSource l) := by
  unfold WellFormedSource; infer_instance

/-! ## Paragraph resolver -/

/-- Modelled from the spec: the helper `maxIndex` is not among the source files.
This is the left-to-right scan of section 4.2, step 4: `best` is the index of the
greatest value seen so far, replaced only by a strictly greater value, so that
ties are broken by the lowest index. -/
def maxIndexFrom : List Nat → Nat → Nat → Nat → Nat
  | [], _, best, _ => best
  | v :: rest, pos, best, bestVal =>
    if bestVal < v then maxIndexFrom rest (pos + 1) pos v
    else maxIndexFrom rest (pos + 1) best bestVal

/-- Modelled from the spec: the helper `maxIndex` is not among the source files.
It selects the index with the globally maximum count, ties broken by lowest
index; on the all-zero ranking it selects index 0. -/
def maxIndex (slice : List Nat) : Nat :=
  match slice with
  | [] => 0
  | v :: rest => maxIndexFrom rest 1 0 v

/-- Paragraph direction, `di.Direction`. -/
inductive Direction where
  | LTR | RTL
  deriving DecidableEq, Repr

/-- The four results of `getLanguageAndScriptAndDirectionAndFont`. -/
structure ResolvedStyle (Face : Type) where
  lng : String
  script : Script
  direction : Direction
  face : Face

/-- The scan loop `for l := 0; l < nLetters; l++` of
`getLanguageAndScriptAndDirectionAndFont`, on the letters not yet read.
Result `none`: an index was out of range. Result `some (some idx, _)`: the jump to
`gotScript` was taken with `idx`. Result `some (none, ranking)`: the loop ran to
its end. -/
def scanLoop (scriptRanges : List ScriptRange) (threshold : Nat) :
    List Int → Nat → List Nat → Option (Option Nat × List Nat)
  | [], _, ranking => some (none, ranking)
  | r :: rest, l, ranking =>
    match lookupScript scriptRanges r with
    | none => none
    | some idx =>
      match ranking[idx]? with
      | none => none
      | some c =>
        if threshold < l ∧ threshold < c + 1 then some (some idx, ranking.set idx (c + 1))
        else scanLoop scriptRanges threshold rest (l + 1) (ranking.set idx (c + 1))

/-- The assignments `script = supportedScripts[idx]`, `face = fontMap[idx]` and the
code from the label `gotScript` on: direction and language. The result is `none`
when `idx` is out of range. -/
def gotScript {Face : Type} (fontMap : Fin nSupportedScripts → Face)
    (detectLanguageOf : List Int → Option String) (paragraph : List Int) (idx : Nat) :
    Option (ResolvedStyle Face) :=
  match supportedScripts[idx]? with
  | none => none
  | some script =>
    if h : idx < nSupportedScripts then
      let face := fontMap ⟨idx, h⟩
      let direction := if script = Script.Arabic then Direction.RTL else Direction.LTR
      let lng := match detectLanguageOf paragraph with
        | some code => code
        | none => "en-us"
      some { lng := lng, script := script, direction := direction, face := face }
    else none

/-- The function `getLanguageAndScriptAndDirectionAndFont`. The arguments before
`paragraph` are the package-level values it reads: the table `scriptRanges`, the
array `fontMap` and the outcome of `detector.DetectLanguageOf` as an ISO 639-1 code.
The result is `none` when an index is out of range. -/
def getLanguageAndScriptAndDirectionAndFont {Face : Type}
    (scriptRanges : List ScriptRange) (fontMap : Fin nSupportedScripts → Face)
    (detectLanguageOf : List Int → Option String) (paragraph : List Int) :
    Option (ResolvedStyle Face) :=
  let nLetters := paragraph.length
  let threshold := nLetters / 2
  match scanLoop scriptRanges threshold paragraph 0 (List.replicate nSupportedScripts 0) with
  | none => none
  | some (some idx, _) => gotScript fontMap detectLanguageOf paragraph idx
  | some (none, ranking) => gotScript fontMap detectLanguageOf paragraph (maxIndex ranking)

/-- The classifier sends `r` to the index `k`. -/
def classifiesTo (scriptRanges : List ScriptRange) (k : Nat) (r : Int) : Bool :=
  lookupScript scriptRanges r == some k

/-- The index `m` is the lowest index of the maximum of `slice`. -/
def IsFirstMax (slice : List Nat) (m : Nat) : Prop :=
  m < slice.length ∧ (∀ j : Nat, slice[j]?.getD 0 ≤ slice[m]?.getD 0) ∧
    (∀ j : Nat, j < m → slice[j]?.getD 0 < slice[m]?.getD 0)

/-! ## Sorted tables and the full tally -/

/-- A range table as the binary search needs it: sorted ascending by `Start`,
`Start ≤ End` in every entry, and the entries pairwise disjoint. -/
def WellFormedTable (scriptRanges : List ScriptRange) : Prop :=
  SortedByStart scriptRanges ∧ (∀ e ∈ scriptRanges, e.Start ≤ e.End) ∧
    scriptRanges.Pairwise (fun a b => a.End < b.Start ∨ b.End < a.Start)

instance (scriptRanges : List ScriptRange) : Decidable (WellFormedTable scriptRanges) := by
  unfold WellFormedTable; infer_instance

/-- The per-script tally of a whole paragraph: for each index below
`nSupportedScripts`, the number of letters the classifier sends to it. -/
def fullTally (scriptRanges : List ScriptRange) (paragraph : List Int) : List Nat :=
  (List.range nSupportedScripts).map
    (fun j => paragraph.countP (classifiesTo scriptRanges j))

/-- The resolver in the words of the spec, without the early exit of step 3: tally
every letter of the paragraph, then select the index with the globally maximum
count, ties broken by the lowest index. -/
def resolveByFullTally {Face : Type} (scriptRanges : List ScriptRange)
    (fontMap : Fin nSupportedScripts → Face) (detectLanguageOf : List Int → Option String)
    (paragraph : List Int) : Option (ResolvedStyle Face) :=
  gotScript fontMap detectLanguageOf paragraph (maxIndex (fullTally scriptRanges paragraph))

/-! ## Quote expansion -/

/-- A Go string: the sequence of its bytes. -/
abbrev GoString := List UInt8

/-- The UTF-8 encoding of the code point `n`. -/
def encodeRune (n : Nat) : GoString :=
  if n < 0x80 then [UInt8.ofNat n]
  else if n < 0x800 then [UInt8.ofNat (0xC0 + n / 64), UInt8.ofNat (0x80 + n % 64)]
  else if n < 0x10000 then
    [UInt8.ofNat (0xE0 + n / 4096), UInt8.ofNat (0x80 + n / 64 % 64),
      UInt8.ofNat (0x80 + n % 64)]
  else
    [UInt8.ofNat (0xF0 + n / 262144), UInt8.ofNat (0x80 + n / 4096 % 64),
      UInt8.ofNat (0x80 + n / 64 % 64), UInt8.ofNat (0x80 + n % 64)]

/-- The bytes of a string literal: the UTF-8 encoding of its characters. -/
def bytes (s : String) : GoString := s.toList.flatMap (fun c => encodeRune c.toNat)

/-- The slice expression `s[a:b]`; `none` when the bounds check fails. -/
def sliceBetween (s : GoString) (a b : Nat) : Option GoString :=
  if a ≤ b ∧ b ≤ s.length then some ((s.take b).drop a) else none

/-- The slice expression `s[a:]`; `none` when the bounds check fails. -/
def sliceFrom (s : GoString) (a : Nat) : Option GoString :=
  if a ≤ s.length then some (s.drop a) else none

/-- The UTF-8 encodings of the runes for which `unicode.IsSpace` holds: tab, line
feed, vertical tab, form feed, carriage return, space, U+0085, U+00A0, U+1680,
U+2000..U+200A, U+2028, U+2029, U+202F, U+205F, U+3000. -/
def spaceEncodings : List GoString :=
  [ [0x09], [0x0A], [0x0B], [0x0C], [0x0D], [0x20], [0xC2, 0x85], [0xC2, 0xA0],
    [0xE1, 0x9A, 0x80],
    [0xE2, 0x80, 0x80], [0xE2, 0x80, 0x81], [0xE2, 0x80, 0x82], [0xE2, 0x80, 0x83],
    [0xE2, 0x80, 0x84], [0xE2, 0x80, 0x85], [0xE2, 0x80, 0x86], [0xE2, 0x80, 0x87],
    [0xE2, 0x80, 0x88], [0xE2, 0x80, 0x89], [0xE2, 0x80, 0x8A],
    [0xE2, 0x80, 0xA8], [0xE2, 0x80, 0xA9], [0xE2, 0x80, 0xAF], [0xE2, 0x81, 0x9F],
    [0xE3, 0x80, 0x80] ]

/-- The string without its first rune when that rune is white space. -/
def dropLeadingSpace (s : GoString) : Option GoString :=
  spaceEncodings.findSome? (fun e => if e.isPrefixOf s then some (s.drop e.length) else none)

/-- The string without its last rune when that rune is white space. -/
def dropTrailingSpace (s : GoString) : Option GoString :=
  spaceEncodings.findSome?
    (fun e => if e.isSuffixOf s then some (s.take (s.length - e.length)) else none)

/-- Removal of leading white space, at most `fuel` runes. -/
def trimLeft : Nat → GoString → GoString
  | 0, s => s
  | fuel + 1, s =>
    match dropLeadingSpace s with
    | some t => trimLeft fuel t
    | none => s

/-- Removal of trailing white space, at most `fuel` runes. -/
def trimRight : Nat → GoString → GoString
  | 0, s => s
  | fuel + 1, s =>
    match dropTrailingSpace s with
    | some t => trimRight fuel t
    | none => s

/-- The library function `strings.TrimSpace`: the string without its leading and
trailing white space, as defined by Unicode. A string has at most as many runes as
bytes, which bounds both removals. -/
def TrimSpace (s : GoString) : GoString :=
  trimRight s.length (trimLeft s.length s)

/-- The regular expression `nostrNoteNeventMatcher`, declared outside these source
files, as the two methods called on it. Of each match returned by
`FindAllStringSubmatchIndex` only `match[0]` and `match[1]` are read, so a match is
this pair of offsets. -/
structure Matcher where
  FindAllStringSubmatchIndex : GoString → List (Nat × Nat)
  FindStringSubmatch : GoString → List GoString

/-- The variables of the loop over the matches of one line. `fetches` counts the calls
of `getEvent` made so far. -/
structure MatchLoopState where
  blocks : List GoString
  i : Int
  b : Nat
  fetches : Nat

/-- The loop `for _, match := range matches` of `quotesAsBlockPrefixedText`.
The argument `getEvent n nip19` is the outcome of the call of `getEvent` on `nip19`
when `n` calls were made before it: `some content` on success, `none` when `err` is
not nil. The result is `none` when an index or a slice is out of range. -/
def matchLoop (matcher : Matcher) (BLOCK : GoString)
    (getEvent : Nat → GoString → Option GoString) (line : GoString) :
    List (Nat × Nat) → MatchLoopState → Option MatchLoopState
  | [], st => some st
  | mt :: rest, st =>
    match sliceBetween line mt.1 mt.2 with
    | none => none
    | some matchText =>
      match (matcher.FindStringSubmatch matchText)[0]? with
      | none => none
      | some submatch0 =>
        match sliceFrom submatch0 6 with
        | none => none
        | some nip19 =>
          match getEvent st.fetches nip19 with
          | none =>
            match st.blocks[st.b]? with
            | none => none
            | some block =>
              matchLoop matcher BLOCK getEvent line rest
                { blocks := st.blocks.set st.b (block ++ matchText), i := st.i + 1,
                  b := st.b, fetches := st.fetches + 1 }
          | some content =>
            matchLoop matcher BLOCK getEvent line rest
              { blocks := st.blocks ++ [BLOCK ++ bytes " " ++ content], i := st.i + 1,
                b := st.b + 1, fetches := st.fetches + 1 }

/-- The loop `for _, line := range lines` of `quotesAsBlockPrefixedText`, with the
blocks accumulated so far and the number of calls of `getEvent` made so far; it
returns the final blocks and the final number of calls. -/
def lineLoop (matcher : Matcher) (BLOCK : GoString)
    (getEvent : Nat → GoString → Option GoString) :
    List GoString → List GoString → Nat → Option (List GoString × Nat)
  | [], blocks, fetches => some (blocks, fetches)
  | line :: rest, blocks, fetches =>
    match matcher.FindAllStringSubmatchIndex line with
    | [] => lineLoop matcher BLOCK getEvent rest (blocks ++ [line]) fetches
    | first :: more =>
      match sliceBetween line 0 first.1 with
      | none => none
      | some leading =>
        match matchLoop matcher BLOCK getEvent line (first :: more)
            { blocks := blocks ++ [leading], i := -1, b := 0, fetches := fetches } with
        | none => none
        | some st =>
          if st.i < 0 then none
          else
            match (first :: more)[st.i.toNat]? with
            | none => none
            | some last =>
              match sliceFrom line last.2 with
              | none => none
              | some remainingText =>
                if TrimSpace remainingText ≠ [] then
                  lineLoop matcher BLOCK getEvent rest (st.blocks ++ [remainingText])
                    st.fetches
                else lineLoop matcher BLOCK getEvent rest st.blocks st.fetches

/-- The function `quotesAsBlockPrefixedText`: the blocks returned, or `none` when an
index or a slice is out of range. -/
def quotesAsBlockPrefixedText (matcher : Matcher) (BLOCK : GoString)
    (getEvent : Nat → GoString → Option GoString) (lines : List GoString) :
    Option (List GoString) :=
  (lineLoop matcher BLOCK getEvent lines [] 0).map Prod.fst

/-- The matches of a line are usable: every match is a span inside the line, the
spans are ascending and do not overlap, and matching the matched text again gives a
whole match `submatch[0]` of at least 6 bytes. -/
def SpansOK (matcher : Matcher) (line : GoString) : Prop :=
  (∀ sp ∈ matcher.FindAllStringSubmatchIndex line,
      sp.1 ≤ sp.2 ∧ sp.2 ≤ line.length ∧
        ∃ submatch0, (matcher.FindStringSubmatch ((line.take sp.2).drop sp.1))[0]?
            = some submatch0 ∧ 6 ≤ submatch0.length) ∧
    (matcher.FindAllStringSubmatchIndex line).Pairwise (fun a b => a.2 ≤ b.1)

/-- A matcher given by a table from lines to match offsets; matching a text again
returns the text itself as `submatch[0]`. -/
def tableMatcher (table : List (GoString × List (Nat × Nat))) : Matcher where
  FindAllStringSubmatchIndex := fun line => (table.lookup line).getD []
  FindStringSubmatch := fun text => [text]

/-! ## Relay filter and file metadata (`data.go`) -/

/-- The library function `strings.Contains`: `substr` occurs in `s`. -/
def Contains (s substr : GoString) : Bool :=
  s.tails.any (fun t => substr.isPrefixOf t)

/-- The inner loop `for _, excluded := range excludedRelays` of the relay filter of
`grabData`. Its `continue` statement belongs to this loop and moves on to the next
entry of `excludedRelays`. The result tells whether the iteration of the enclosing
loop over the relays is abandoned, which no path of this loop does. -/
def excludedLoop (relay : GoString) : List GoString → Bool
  | [] => false
  | excluded :: rest =>
    if Contains relay excluded then excludedLoop relay rest
    else excludedLoop relay rest

/-- The loop `for _, relay := range rawAuthorRelays` of `grabData` (kind 0), with the
value of `data.authorRelays` so far. The list `excludedRelays` and the function
`trimProtocol` are declared outside these source files. -/
def authorRelaysLoop (excludedRelays : List GoString) (trimProtocol : GoString → GoString) :
    List GoString → List GoString → List GoString
  | [], authorRelays => authorRelays
  | relay :: rest, authorRelays =>
    if excludedLoop relay excludedRelays then
      authorRelaysLoop excludedRelays trimProtocol rest authorRelays
    else if Contains relay (bytes "/npub1") then
      authorRelaysLoop excludedRelays trimProtocol rest authorRelays
    else
      authorRelaysLoop excludedRelays trimProtocol rest
        (authorRelays ++ [trimProtocol relay])

/-- The library function `strings.Split` for a separator of one byte, as in
`strings.Split(fm.M, "/")`. -/
def Split (sep : UInt8) : GoString → List GoString
  | [] => [[]]
  | c :: rest =>
    if c = sep then [] :: Split sep rest
    else
      match Split sep rest with
      | [] => [[c]]
      | first :: more => (c :: first) :: more

/-- The struct `Kind1063Metadata`; every field is the empty string unless set. -/
structure Kind1063Metadata where
  Magnet : GoString := []
  Dim : GoString := []
  Size : GoString := []
  Summary : GoString := []
  Image : GoString := []
  URL : GoString := []
  AES256GCM : GoString := []
  M : GoString := []
  X : GoString := []
  I : GoString := []
  Blurhash : GoString := []
  Thumb : GoString := []

/-- The method `IsVideo`; `none` when the index 0 is out of range. -/
def Kind1063Metadata.IsVideo (fm : Kind1063Metadata) : Option Bool :=
  match (Split 0x2F fm.M)[0]? with
  | none => none
  | some first => some (first == bytes "video")

/-- The method `IsImage`; `none` when the index 0 is out of range. -/
def Kind1063Metadata.IsImage (fm : Kind1063Metadata) : Option Bool :=
  match (Split 0x2F fm.M)[0]? with
  | none => none
  | some first => some (first == bytes "image")

/-- The values of `data.image`, `data.video` and `data.videoType` that `grabData`
derives from the metadata of an event of kind 1063. -/
structure Kind1063Media where
  image : GoString
  video : GoString
  videoType : GoString
  deriving DecidableEq

/-- The branch `if event.Kind == 1063` near the end of `grabData`, starting from the
empty `data.image`, `data.video` and `data.videoType`; `none` when an index is out
of range. -/
def kind1063Media (fm : Kind1063Metadata) : Option Kind1063Media :=
  match fm.IsImage with
  | none => none
  | some true => some { image := fm.URL, video := [], videoType := [] }
  | some false =>
    match fm.IsVideo with
    | none => none
    | some true =>
      match (Split 0x2F fm.M)[1]? with
      | none => none
      | some videoType => some { image := [], video := fm.URL, videoType := videoType }
    | some false => some { image := [], video := [], videoType := [] }

/-! ## Image transforms -/

/-- A colour in the RGBA colour model, `color.RGBA`. The colours of a source image
are taken in this model, the one in which `(*image.RGBA).Set` stores them. -/
structure RGBA where
  R : UInt8
  G : UInt8
  B : UInt8
  A : UInt8
  deriving DecidableEq

/-- The zero value `color.RGBA{}`: transparent. -/
def RGBA.zero : RGBA := ⟨0, 0, 0, 0⟩

/-- The struct `image.Rectangle`, with `Min = (MinX, MinY)` and `Max = (MaxX, MaxY)`. -/
structure Rectangle where
  MinX : Int
  MinY : Int
  MaxX : Int
  MaxY : Int
  deriving DecidableEq

/-- The method `Dx`: the width. -/
def Rectangle.Dx (r : Rectangle) : Int := r.MaxX - r.MinX

/-- The method `Dy`: the height. -/
def Rectangle.Dy (r : Rectangle) : Int := r.MaxY - r.MinY

/-- The function `image.Rect`, which orders the coordinates. -/
def Rect (x0 y0 x1 y1 : Int) : Rectangle :=
  { MinX := if x0 > x1 then x1 else x0,
    MinY := if y0 > y1 then y1 else y0,
    MaxX := if x0 > x1 then x0 else x1,
    MaxY := if y0 > y1 then y0 else y1 }

/-- The point `(x, y)` lies in the rectangle, `image.Point.In`. -/
def Rectangle.contains (r : Rectangle) (x y : Int) : Bool :=
  decide (r.MinX ≤ x ∧ x < r.MaxX ∧ r.MinY ≤ y ∧ y < r.MaxY)

/-- The interface `image.Image`: the methods `Bounds` and `At`. -/
structure Image where
  Bounds : Rectangle
  At : Int → Int → RGBA

/-- The function `image.NewRGBA`: every pixel is the zero colour. -/
def NewRGBA (r : Rectangle) : Image :=
  { Bounds := r, At := fun _ _ => RGBA.zero }

/-- The method `(*image.RGBA).Set`: no effect outside the bounds. -/
def Image.Set (img : Image) (x y : Int) (c : RGBA) : Image :=
  if img.Bounds.contains x y then
    { Bounds := img.Bounds,
      At := fun x' y' => if x' = x ∧ y' = y then c else img.At x' y' }
  else img

/-- The inner loop `for y := 0; y < size; y++` of `cropToSquare` for one `x`. -/
def cropColumn (img : Image) (size : Int) (squareImg : Image) (x : Nat) : Image :=
  (List.range size.toNat).foldl
    (fun sq (y : Nat) =>
      sq.Set x y (img.At (x + (img.Bounds.Dx - size).tdiv 2)
        (y + (img.Bounds.Dy - size).tdiv 2)))
    squareImg

/-- The function `cropToSquare`. The value `int(math.Min(float64(dx), float64(dy)))`
is the smaller of the two integers: the conversions are exact for dimensions below
2^53. -/
def cropToSquare (img : Image) : Image :=
  let bounds := img.Bounds
  let size := min bounds.Dx bounds.Dy
  let squareImg := NewRGBA (Rect 0 0 size size)
  (List.range size.toNat).foldl (cropColumn img size) squareImg

/-- An `*image.RGBA` picture with the given bounds and the same colour at every point
of them; elsewhere `At` is the zero colour. -/
def uniformPicture (r : Rectangle) (c : RGBA) : Image :=
  { Bounds := r, At := fun x y => if r.contains x y then c else RGBA.zero }

/-! ## Circular mask (`roundImage`) -/

/-- The interface `color.Color` through its method `RGBA`: alpha-premultiplied red,
green, blue and alpha, each within [0, 0xffff]. -/
structure Color where
  r : UInt16
  g : UInt16
  b : UInt16
  a : UInt16
  deriving DecidableEq

/-- The method `RGBA` of `color.RGBA`: a channel `v` becomes `v | v << 8`, which is
`v * 0x101`. -/
def RGBA.toColor (c : RGBA) : Color :=
  { r := UInt16.ofNat (c.R.toNat * 0x101), g := UInt16.ofNat (c.G.toNat * 0x101),
    b := UInt16.ofNat (c.B.toNat * 0x101), a := UInt16.ofNat (c.A.toNat * 0x101) }

/-- The conversion `color.RGBAModel.Convert`: every channel shifted right by 8. -/
def rgbaModel (c : Color) : RGBA :=
  { R := UInt8.ofNat (c.r.toNat >>> 8), G := UInt8.ofNat (c.g.toNat >>> 8),
    B := UInt8.ofNat (c.b.toNat >>> 8), A := UInt8.ofNat (c.a.toNat >>> 8) }

/-- The interface `image.Image` for a source of any colour model: the methods
`Bounds` and `At`, the colour given by its method `RGBA`. -/
structure ColorImage where
  Bounds : Rectangle
  At : Int → Int → Color

/-- The method `Empty` of `image.Rectangle`. -/
def Rectangle.Empty (r : Rectangle) : Bool :=
  decide (r.MinX ≥ r.MaxX ∨ r.MinY ≥ r.MaxY)

/-- The method `Add` of `image.Rectangle`: translation by `(dx, dy)`. -/
def Rectangle.Add (r : Rectangle) (dx dy : Int) : Rectangle :=
  { MinX := r.MinX + dx, MinY := r.MinY + dy, MaxX := r.MaxX + dx, MaxY := r.MaxY + dy }

/-- The method `Intersect` of `image.Rectangle`; the zero rectangle when the
intersection is empty. -/
def Rectangle.Intersect (r s : Rectangle) : Rectangle :=
  let t : Rectangle :=
    { MinX := if r.MinX < s.MinX then s.MinX else r.MinX,
      MinY := if r.MinY < s.MinY then s.MinY else r.MinY,
      MaxX := if r.MaxX > s.MaxX then s.MaxX else r.MaxX,
      MaxY := if r.MaxY > s.MaxY then s.MaxY else r.MaxY }
  if t.Empty then ⟨0, 0, 0, 0⟩ else t

/-- A value reduced to 32 bits, for the `uint32` arithmetic of `image/draw`. -/
def uint32 (n : Nat) : Nat := n % 4294967296

/-- What `clip` of `image/draw` leaves in `r`, `sp` and `mp`. -/
structure Clip where
  r : Rectangle
  spX : Int
  spY : Int
  mpX : Int
  mpY : Int
  deriving DecidableEq

/-- The function `clip` of `image/draw`: `r` cut down to the bounds of the
destination, of the source and of the mask, and `sp`, `mp` moved along. -/
def clip (dstBounds r srcBounds : Rectangle) (spX spY : Int) (maskBounds : Rectangle)
    (mpX mpY : Int) : Clip :=
  let origX := r.MinX
  let origY := r.MinY
  let r1 := r.Intersect dstBounds
  let r2 := r1.Intersect (srcBounds.Add (origX - spX) (origY - spY))
  let r3 := r2.Intersect (maskBounds.Add (origX - mpX) (origY - mpY))
  let dx := r3.MinX - origX
  let dy := r3.MinY - origY
  if dx = 0 ∧ dy = 0 then { r := r3, spX := spX, spY := spY, mpX := mpX, mpY := mpY }
  else { r := r3, spX := spX + dx, spY := spY + dy, mpX := mpX + dx, mpY := mpY + dy }

/-- One channel of the `draw.Over` step of `drawRGBA`:
`uint8((d*a + s*ma) / m >> 8)` with `m = 0xffff`, in `uint32` arithmetic. -/
def overChannel (d : UInt8) (s : UInt16) (a ma : Nat) : UInt8 :=
  UInt8.ofNat ((uint32 (uint32 (d.toNat * a) + uint32 (s.toNat * ma)) / 65535) >>> 8)

/-- The `draw.Over` step of `drawRGBA` on one pixel: the destination colour `d`, the
source colour `s` and the mask alpha `ma` give the new destination colour, with
`a := (m - (sa * ma / m)) * 0x101`. -/
def overPixel (d : RGBA) (s : Color) (ma : Nat) : RGBA :=
  let a := uint32 (uint32 (65535 + 4294967296 - uint32 (s.a.toNat * ma) / 65535) * 0x101)
  { R := overChannel d.R s.r a ma, G := overChannel d.G s.g a ma,
    B := overChannel d.B s.b a ma, A := overChannel d.A s.a a ma }

/-- The inner loop of `drawRGBA` for the row at distance `j` from the top of `r`:
`x`, `sx` and `mx` advance together from `r.Min.X`, `sp.X` and `mp.X`. -/
def drawRGBARow (r : Rectangle) (src : ColorImage) (spX spY : Int) (mask : Image)
    (mpX mpY : Int) (j : Nat) (dst : Image) : Image :=
  (List.range (r.MaxX - r.MinX).toNat).foldl
    (fun dst (k : Nat) =>
      dst.Set (r.MinX + k) (r.MinY + j)
        (overPixel (dst.At (r.MinX + k) (r.MinY + j)) (src.At (spX + k) (spY + j))
          (mask.At (mpX + k) (mpY + j)).toColor.a.toNat))
    dst

/-- The function `drawRGBA` of `image/draw` for `draw.Over`, a mask, and a
destination that is not the source: the rows of `r` from top to bottom. -/
def drawRGBA (dst : Image) (r : Rectangle) (src : ColorImage) (spX spY : Int)
    (mask : Image) (mpX mpY : Int) : Image :=
  (List.range (r.MaxY - r.MinY).toNat).foldl
    (fun dst (j : Nat) => drawRGBARow r src spX spY mask mpX mpY j dst) dst

/-- The function `draw.DrawMask` with `draw.Over`, for a destination `*image.RGBA`
and a mask `*image.RGBA`: clip, return when nothing is left, else `drawRGBA`. -/
def DrawMask (dst : Image) (r : Rectangle) (src : ColorImage) (spX spY : Int)
    (mask : Image) (mpX mpY : Int) : Image :=
  let c := clip dst.Bounds r src.Bounds spX spY mask.Bounds mpX mpY
  if c.r.Empty then dst
  else drawRGBA dst c.r src c.spX c.spY mask c.mpX c.mpY

/-- The function `roundImage`. The argument `circleMask w h` stands for what the
library `gg` has drawn when `mask.Image()` is called: the colour at `(x, y)` of the
`w` by `h` context after `SetColor(color.Black)`, `DrawCircle(w/2, h/2, min(w, h)/2)`,
`ClosePath()` and `Fill()`. The context is an `*image.RGBA` with bounds
`image.Rect(0, 0, w, h)`. -/
def roundImage (circleMask : Int → Int → Int → Int → RGBA) (img : ColorImage) : Image :=
  let bounds := img.Bounds
  let maskImg : Image :=
    { Bounds := Rect 0 0 bounds.Dx bounds.Dy,
      At := fun x y =>
        if (Rect 0 0 bounds.Dx bounds.Dy).contains x y then circleMask bounds.Dx bounds.Dy x y
        else RGBA.zero }
  let result := NewRGBA bounds
  DrawMask result bounds img 0 0 maskImg 0 0

/-- The pixel with corner `(x, y)` lies inside the circle of diameter `min(w, h)`
centred in the `w` by `h` rectangle: its four corners do. Coordinates are doubled to
stay in the integers. -/
def pixelInsideCircle (w h x y : Int) : Bool :=
  [(x, y), (x + 1, y), (x, y + 1), (x + 1, y + 1)].all
    (fun p => decide ((2 * p.1 - w) ^ 2 + (2 * p.2 - h) ^ 2 < (min w h) ^ 2))

/-- The pixel with corner `(x, y)` lies outside that circle: its point nearest to the
centre does. -/
def pixelOutsideCircle (w h x y : Int) : Bool :=
  let nx := if w < 2 * x then 2 * x - w else if 2 * x + 2 < w then w - (2 * x + 2) else 0
  let ny := if h < 2 * y then 2 * y - h else if 2 * y + 2 < h then h - (2 * y + 2) else 0
  decide ((min w h) ^ 2 < nx ^ 2 + ny ^ 2)

/-- A mask as a coverage rasteriser fills the circle: opaque black on the pixels
inside the circle, transparent on the pixels outside, half covered on the rim. -/
def coverageMask (w h x y : Int) : RGBA :=
  if pixelInsideCircle w h x y then ⟨0, 0, 0, 255⟩
  else if pixelOutsideCircle w h x y then RGBA.zero
  else ⟨0, 0, 0, 128⟩

/-- A source picture with the given bounds and the same colour at every point of
them; elsewhere `At` is the zero colour. -/
def uniformColorPicture (r : Rectangle) (c : RGBA) : ColorImage :=
  { Bounds := r, At := fun x y => if r.contains x y then c.toColor else ⟨0, 0, 0, 0⟩ }

/-! ## Facts about the classifier -/

theorem supportedScripts_length : supportedScripts.length = nSupportedScripts := rfl

/-- With fuel above `j - i` and `j` inside the table, a rune that lies in no entry
makes the loop of `lookupScript` end with the result 0. -/
theorem lookupScriptLoop_outside (scriptRanges : List ScriptRange) (r : Int)
    (hout : ∀ e ∈ scriptRanges, ¬ (e.Start ≤ r ∧ r ≤ e.End)) :
    ∀ (fuel i j : Nat), j - i < fuel → j ≤ scriptRanges.length →
      lookupScriptLoop scriptRanges r fuel i j = some 0 := by
  intro fuel
  induction fuel with
  | zero => intro i j h; omega
  | succ fuel ih =>
    intro i j hfuel hj
    unfold lookupScriptLoop
    by_cases hij : i < j
    · have hdiv : (j - i) / 2 < j - i := Nat.div_lt_self (by omega) (by decide)
      have hh : i + (j - i) / 2 < scriptRanges.length := by omega
      simp only [hij, if_true, List.getElem?_eq_getElem hh]
      have hmem : scriptRanges[i + (j - i) / 2] ∈ scriptRanges := List.getElem_mem hh
      have hno := hout _ hmem
      by_cases h1 : r < (scriptRanges[i + (j - i) / 2]).Start
      · simp only [h1, if_true]
        exact ih _ _ (by omega) (by omega)
      · by_cases h2 : (scriptRanges[i + (j - i) / 2]).End < r
        · simp only [h1, h2, if_true, if_false]
          exact ih _ _ (by omega) hj
        · exact absurd ⟨by omega, by omega⟩ hno
    · simp [hij]

/-- A rune outside every range of the table is classified as 0, whatever the
order of the table. -/
theorem lookupScript_outside (scriptRanges : List ScriptRange) (r : Int)
    (hout : ∀ e ∈ scriptRanges, ¬ (e.Start ≤ r ∧ r ≤ e.End)) :
    lookupScript scriptRanges r = some 0 :=
  lookupScriptLoop_outside scriptRanges r hout _ _ _ (by omega) (le_refl _)

/-- With fuel above `j - i` and `j` inside the table the loop of `lookupScript`
returns, and what it returns is 0 or the index of an entry below `j`. -/
theorem lookupScriptLoop_returns (scriptRanges : List ScriptRange) (r : Int) :
    ∀ (fuel i j : Nat), j - i < fuel → j ≤ scriptRanges.length →
      ∃ n, lookupScriptLoop scriptRanges r fuel i j = some n ∧ (n = 0 ∨ n < j) := by
  intro fuel
  induction fuel with
  | zero => intro i j h; omega
  | succ fuel ih =>
    intro i j hfuel hj
    unfold lookupScriptLoop
    by_cases hij : i < j
    · have hdiv : (j - i) / 2 < j - i := Nat.div_lt_self (by omega) (by decide)
      have hh : i + (j - i) / 2 < scriptRanges.length := by omega
      simp only [hij, if_true, List.getElem?_eq_getElem hh]
      by_cases h1 : r < (scriptRanges[i + (j - i) / 2]).Start
      · simp only [h1, if_true]
        obtain ⟨n, hn, hlt⟩ := ih i (i + (j - i) / 2) (by omega) (by omega)
        exact ⟨n, hn, by omega⟩
      · by_cases h2 : (scriptRanges[i + (j - i) / 2]).End < r
        · simp only [h1, h2, if_true, if_false]
          exact ih _ _ (by omega) hj
        · simp only [h1, h2, if_false]
          exact ⟨_, rfl, by omega⟩
    · exact ⟨0, by simp [hij], Or.inl rfl⟩

/-- The function `lookupScript` always returns. -/
theorem lookupScript_returns (scriptRanges : List ScriptRange) (r : Int) :
    ∃ n, lookupScript scriptRanges r = some n ∧ (n = 0 ∨ n < scriptRanges.length) :=
  lookupScriptLoop_returns scriptRanges r _ _ _ (by omega) (le_refl _)

/-- What the loop of `lookupScript` returns is 0 or the position, in `scriptRanges`,
of an entry that contains the rune; the field `Pos` of the entry plays no part. -/
theorem lookupScriptLoop_position (scriptRanges : List ScriptRange) (r : Int) :
    ∀ (fuel i j n : Nat), lookupScriptLoop scriptRanges r fuel i j = some n →
      n = 0 ∨ ∃ entry, scriptRanges[n]? = some entry ∧ entry.Start ≤ r ∧ r ≤ entry.End := by
  intro fuel
  induction fuel with
  | zero => intro i j n h; simp [lookupScriptLoop] at h
  | succ fuel ih =>
    intro i j n h
    unfold lookupScriptLoop at h
    by_cases hij : i < j
    · simp only [hij, if_true] at h
      cases hget : scriptRanges[i + (j - i) / 2]? with
      | none => simp [hget] at h
      | some entry =>
        simp only [hget] at h
        by_cases h1 : r < entry.Start
        · simp only [h1, if_true] at h
          exact ih _ _ _ h
        · by_cases h2 : entry.End < r
          · simp only [h1, h2, if_true, if_false] at h
            exact ih _ _ _ h
          · simp only [h1, h2, if_false, Option.some.injEq] at h
            subst h
            exact Or.inr ⟨entry, hget, by omega, by omega⟩
    · simp only [hij, if_false, Option.some.injEq] at h
      exact Or.inl h.symm

/-- The value of `lookupScript` is 0 or the position in `scriptRanges` of an entry
that contains the rune. -/
theorem lookupScript_position (scriptRanges : List ScriptRange) (r : Int) (n : Nat)
    (h : lookupScript scriptRanges r = some n) :
    n = 0 ∨ ∃ entry, scriptRanges[n]? = some entry ∧ entry.Start ≤ r ∧ r ≤ entry.End :=
  lookupScriptLoop_position scriptRanges r _ _ _ n h

/-! ## Facts about `maxIndex` and the scan -/

theorem maxIndexFrom_spec (rest : List Nat) :
    ∀ (pre : List Nat) (best bestVal : Nat), best < pre.length →
      pre[best]?.getD 0 = bestVal → (∀ j : Nat, pre[j]?.getD 0 ≤ bestVal) →
      (∀ j : Nat, j < best → pre[j]?.getD 0 < bestVal) →
      IsFirstMax (pre ++ rest) (maxIndexFrom rest pre.length best bestVal) := by
  induction rest with
  | nil =>
    intro pre best bestVal hb hv hmax hlow
    simp only [maxIndexFrom, List.append_nil]
    exact ⟨hb, fun j => by rw [hv]; exact hmax j, fun j hj => by rw [hv]; exact hlow j hj⟩
  | cons v rest ih =>
    intro pre best bestVal hb hv hmax hlow
    have hlen : (pre ++ [v]).length = pre.length + 1 := by simp
    have hget : ∀ j : Nat, (pre ++ [v])[j]?.getD 0 =
        if j < pre.length then pre[j]?.getD 0 else if j = pre.length then v else 0 := by
      intro j
      by_cases hj : j < pre.length
      · simp [hj, List.getElem?_append_left hj]
      · by_cases hj2 : j = pre.length
        · subst hj2; simp
        · have : pre.length + 1 ≤ j := by omega
          simp [hj, hj2, List.getElem?_eq_none, this]
    have happ : pre ++ v :: rest = (pre ++ [v]) ++ rest := by simp
    unfold maxIndexFrom
    by_cases hlt : bestVal < v
    · simp only [hlt, if_true]
      rw [happ, ← hlen]
      apply ih
      · omega
      · rw [hget]; simp
      · intro j
        rw [hget]
        by_cases hj : j < pre.length
        · simp only [hj, if_true]; have := hmax j; omega
        · by_cases hj2 : j = pre.length <;> simp [hj, hj2]
      · intro j hj
        rw [hget]
        simp only [hj, if_true]; have := hmax j; omega
    · simp only [hlt, if_false]
      rw [happ, ← hlen]
      apply ih
      · omega
      · rw [hget]; simp only [hb, if_true]; exact hv
      · intro j
        rw [hget]
        by_cases hj : j < pre.length
        · simp only [hj, if_true]; exact hmax j
        · by_cases hj2 : j = pre.length <;> simp [hj, hj2]; omega
      · intro j hj
        rw [hget]
        have hj' : j < pre.length := by omega
        simp only [hj', if_true]; exact hlow j hj

/-- On a non-empty slice `maxIndex` is the lowest index of the maximum. -/
theorem maxIndex_spec (slice : List Nat) (hne : slice ≠ []) :
    IsFirstMax slice (maxIndex slice) := by
  cases slice with
  | nil => exact absurd rfl hne
  | cons v rest =>
    have h := maxIndexFrom_spec rest [v] 0 v (by simp) (by simp)
      (by intro j; cases j <;> simp) (by intro j hj; omega)
    simpa [maxIndex] using h

/-- A strict maximum is what `maxIndex` selects. -/
theorem maxIndex_eq_of_strict (slice : List Nat) (k : Nat) (hk : k < slice.length)
    (hstrict : ∀ j : Nat, j ≠ k → slice[j]?.getD 0 < slice[k]?.getD 0) :
    maxIndex slice = k := by
  have hne : slice ≠ [] := by intro h; simp [h] at hk
  obtain ⟨_, hmax, _⟩ := maxIndex_spec slice hne
  by_contra hneq
  have h1 := hstrict _ hneq
  have h2 := hmax k
  omega

/-- Two different indices cannot both have a tally of the same letters that adds up
to more than the number of letters. -/
theorem countP_classifiesTo_disjoint (scriptRanges : List ScriptRange) (j k : Nat)
    (hjk : j ≠ k) (p : List Int) :
    p.countP (classifiesTo scriptRanges j) + p.countP (classifiesTo scriptRanges k)
      ≤ p.length := by
  induction p with
  | nil => simp
  | cons r rest ih =>
    simp only [List.countP_cons, List.length_cons]
    by_cases h1 : classifiesTo scriptRanges j r = true
    · have h2 : classifiesTo scriptRanges k r = false := by
        simp only [classifiesTo, beq_iff_eq] at h1
        simp only [classifiesTo, h1, beq_eq_false_iff_ne, ne_eq, Option.some.injEq]
        exact hjk
      simp only [h1, h2, if_true]
      simp; omega
    · simp only [h1]
      by_cases h2 : classifiesTo scriptRanges k r = true
      · simp only [h2, if_true]; simp; omega
      · simp only [h2]; simp; omega

/-- What the scan loop does on letters whose classification is below
`nSupportedScripts`: it does not fail; when it jumps to `gotScript` with `idx`, the
tally of `idx` over the letters given exceeds the threshold; when it runs to the
end, the ranking is the starting ranking plus the tally of every index. -/
theorem scanLoop_spec (scriptRanges : List ScriptRange) (threshold : Nat) :
    ∀ (rest : List Int) (l : Nat) (ranking : List Nat),
      ranking.length = nSupportedScripts →
      (∀ r ∈ rest, ∃ i, lookupScript scriptRanges r = some i ∧ i < nSupportedScripts) →
      ∃ found ranking', scanLoop scriptRanges threshold rest l ranking
          = some (found, ranking') ∧
        match found with
        | some idx => idx < nSupportedScripts ∧
            threshold < ranking[idx]?.getD 0 + rest.countP (classifiesTo scriptRanges idx)
        | none => ranking'.length = nSupportedScripts ∧
            ∀ j : Nat, ranking'[j]?.getD 0
              = ranking[j]?.getD 0 + rest.countP (classifiesTo scriptRanges j) := by
  intro rest
  induction rest with
  | nil =>
    intro l ranking hlen _
    exact ⟨none, ranking, rfl, hlen, fun j => by simp⟩
  | cons r rest ih =>
    intro l ranking hlen hvalid
    obtain ⟨i, hi, hi11⟩ := hvalid r (List.mem_cons_self _ _)
    have hil : i < ranking.length := by omega
    have hcls : ∀ j : Nat, classifiesTo scriptRanges j r = decide (i = j) := by
      intro j
      simp only [classifiesTo, hi]
      by_cases hij : i = j <;> simp [hij]
    have hset : ∀ j : Nat, (ranking.set i (ranking[i] + 1))[j]?.getD 0
        = ranking[j]?.getD 0 + if i = j then 1 else 0 := by
      intro j
      by_cases hij : i = j
      · subst hij; simp [hil]
      · simp [List.getElem?_set, hij]
    unfold scanLoop
    simp only [hi, List.getElem?_eq_getElem hil]
    by_cases hc : threshold < l ∧ threshold < ranking[i] + 1
    · refine ⟨some i, ranking.set i (ranking[i] + 1), by simp only [hc, and_self, if_true], hi11, ?_⟩
      have : 0 < (r :: rest).countP (classifiesTo scriptRanges i) :=
        List.countP_pos_iff.mpr ⟨r, List.mem_cons_self _ _, by simp [hcls]⟩
      simp only [List.getElem?_eq_getElem hil, Option.getD_some]
      omega
    · obtain ⟨found, ranking', hrun, hpost⟩ :=
        ih (l + 1) (ranking.set i (ranking[i] + 1)) (by simpa using hlen)
          (fun r' hr' => hvalid r' (List.mem_cons_of_mem _ hr'))
      refine ⟨found, ranking', by simp only [hc, if_false]; exact hrun, ?_⟩
      cases found with
      | some idx =>
        obtain ⟨h1, h2⟩ := hpost
        refine ⟨h1, ?_⟩
        rw [hset] at h2
        simp only [List.countP_cons, hcls]
        by_cases hij : i = idx <;> simp [hij] at h2 ⊢ <;> omega
      | none =>
        obtain ⟨h1, h2⟩ := hpost
        refine ⟨h1, fun j => ?_⟩
        rw [h2 j, hset]
        simp only [List.countP_cons, hcls]
        by_cases hij : i = j
        · simp [hij]; omega
        · simp [hij]

/-- A paragraph in which more than half of the letters classify to the index `k`
(all classifications being below `nSupportedScripts`) resolves to the script and
the font of `k`, through the jump to `gotScript` or through `maxIndex`. -/
theorem resolve_of_majority {Face : Type} (scriptRanges : List ScriptRange)
    (fontMap : Fin nSupportedScripts → Face) (detectLanguageOf : List Int → Option String)
    (p : List Int) (k : Nat)
    (hvalid : ∀ r ∈ p, ∃ i, lookupScript scriptRanges r = some i ∧ i < nSupportedScripts)
    (hmaj : p.length < 2 * p.countP (classifiesTo scriptRanges k)) :
    ∃ (hk : k < nSupportedScripts) (s : Script) (st : ResolvedStyle Face),
      supportedScripts[k]? = some s ∧
      getLanguageAndScriptAndDirectionAndFont scriptRanges fontMap detectLanguageOf p
        = some st ∧ st.script = s ∧ st.face = fontMap ⟨k, hk⟩ := by
  have hpos : 0 < p.countP (classifiesTo scriptRanges k) := by omega
  obtain ⟨r, hr, hrk⟩ := List.countP_pos_iff.mp hpos
  have hk : k < nSupportedScripts := by
    obtain ⟨i, hi, hi11⟩ := hvalid r hr
    simp only [classifiesTo, hi, beq_iff_eq, Option.some.injEq] at hrk
    omega
  have hks : k < supportedScripts.length := hk
  obtain ⟨found, ranking', hrun, hpost⟩ :=
    scanLoop_spec scriptRanges (p.length / 2) p 0 (List.replicate nSupportedScripts 0)
      (by simp) hvalid
  have hzero : ∀ j : Nat, (List.replicate nSupportedScripts 0)[j]?.getD 0 = 0 := by
    intro j
    by_cases hj : j < nSupportedScripts
    · simp [List.getElem?_replicate, hj]
    · simp [List.getElem?_replicate, hj]
  obtain ⟨st, hgot, hs1, hs2⟩ : ∃ st : ResolvedStyle Face,
      gotScript fontMap detectLanguageOf p k = some st ∧
        st.script = supportedScripts[k] ∧ st.face = fontMap ⟨k, hk⟩ := by
    unfold gotScript
    simp only [List.getElem?_eq_getElem hks, hk, dite_true]
    exact ⟨_, rfl, rfl, rfl⟩
  refine ⟨hk, supportedScripts[k], st, List.getElem?_eq_getElem hks, ?_, hs1, hs2⟩
  unfold getLanguageAndScriptAndDirectionAndFont
  simp only [hrun]
  cases found with
  | some idx =>
    obtain ⟨_, h2⟩ := hpost
    rw [hzero] at h2
    have hik : idx = k := by
      by_contra hne
      have := countP_classifiesTo_disjoint scriptRanges idx k hne p
      omega
    simp only [hik]
    exact hgot
  | none =>
    obtain ⟨h1, h2⟩ := hpost
    have hm : maxIndex ranking' = k := by
      apply maxIndex_eq_of_strict ranking' k (by omega)
      intro j hj
      rw [h2 j, h2 k, hzero, hzero]
      have := countP_classifiesTo_disjoint scriptRanges j k hj p
      omega
    simp only [hm]
    exact hgot

/-! ## Facts about the binary search on a sorted table -/

/-- In a well-formed table an earlier entry ends before a later entry starts. -/
theorem WellFormedTable.ordered {scriptRanges : List ScriptRange}
    (hwf : WellFormedTable scriptRanges) :
    ∀ (a b : Nat) (ha : a < scriptRanges.length) (hb : b < scriptRanges.length),
      a < b → (scriptRanges[a]).End < (scriptRanges[b]).Start := by
  obtain ⟨hsorted, hle, hdisj⟩ := hwf
  intro a b ha hb hab
  have h1 := (List.pairwise_iff_getElem.mp hsorted) a b ha hb hab
  have h2 := (List.pairwise_iff_getElem.mp hdisj) a b ha hb hab
  have h3 := hle _ (List.getElem_mem hb)
  simp only at h1 h2
  rcases h2 with h2 | h2
  · exact h2
  · omega

/-- On a well-formed table the loop of `lookupScript`, started on a window `[i, j)`
that holds the position `k` of an entry containing the rune, ends at `k`. -/
theorem lookupScriptLoop_finds (scriptRanges : List ScriptRange) (r : Int)
    (hwf : WellFormedTable scriptRanges) (k : Nat) (hk : k < scriptRanges.length)
    (hin : (scriptRanges[k]).Start ≤ r ∧ r ≤ (scriptRanges[k]).End) :
    ∀ (fuel i j : Nat), j - i < fuel → j ≤ scriptRanges.length → i ≤ k → k < j →
      lookupScriptLoop scriptRanges r fuel i j = some k := by
  have hord := hwf.ordered
  intro fuel
  induction fuel with
  | zero => intro i j h; omega
  | succ fuel ih =>
    intro i j hfuel hj hik hkj
    unfold lookupScriptLoop
    have hij : i < j := by omega
    have hdiv : (j - i) / 2 < j - i := Nat.div_lt_self (by omega) (by decide)
    have hh : i + (j - i) / 2 < scriptRanges.length := by omega
    simp only [hij, if_true, List.getElem?_eq_getElem hh]
    by_cases h1 : r < (scriptRanges[i + (j - i) / 2]).Start
    · simp only [h1, if_true]
      have hlt : k < i + (j - i) / 2 := by
        by_contra hge
        rcases Nat.lt_or_ge (i + (j - i) / 2) k with hlt | hge'
        · have := hord _ _ hh hk hlt
          have := hwf.2.1 _ (List.getElem_mem hh)
          omega
        · have : k = i + (j - i) / 2 := by omega
          subst this
          omega
      exact ih _ _ (by omega) (by omega) hik hlt
    · by_cases h2 : (scriptRanges[i + (j - i) / 2]).End < r
      · simp only [h1, h2, if_true, if_false]
        have hgt : i + (j - i) / 2 < k := by
          by_contra hge
          rcases Nat.lt_or_ge k (i + (j - i) / 2) with hlt | hge'
          · have := hord _ _ hk hh hlt
            have := hwf.2.1 _ (List.getElem_mem hh)
            omega
          · have : k = i + (j - i) / 2 := by omega
            subst this
            omega
        exact ih _ _ (by omega) hj (by omega) hkj
      · simp only [h1, h2, if_false, Option.some.injEq]
        by_contra hne
        rcases Nat.lt_or_ge k (i + (j - i) / 2) with hlt | hge'
        · have := hord _ _ hk hh hlt
          omega
        · have hlt : i + (j - i) / 2 < k := by omega
          have := hord _ _ hh hk hlt
          omega

/-! ## Facts about the full tally -/

theorem fullTally_length (scriptRanges : List ScriptRange) (paragraph : List Int) :
    (fullTally scriptRanges paragraph).length = nSupportedScripts := by
  simp [fullTally]

theorem fullTally_getD (scriptRanges : List ScriptRange) (paragraph : List Int) (j : Nat) :
    (fullTally scriptRanges paragraph)[j]?.getD 0
      = if j < nSupportedScripts then paragraph.countP (classifiesTo scriptRanges j)
        else 0 := by
  by_cases hj : j < nSupportedScripts
  · simp [fullTally, hj, List.getElem?_map, List.getElem?_range hj]
  · have : (fullTally scriptRanges paragraph).length ≤ j := by
      rw [fullTally_length]; omega
    simp [hj, List.getElem?_eq_none this]

/-- A ranking of length `nSupportedScripts` whose entries are the tallies of the
whole paragraph is the full tally. -/
theorem eq_fullTally (scriptRanges : List ScriptRange) (paragraph : List Int)
    (ranking : List Nat) (hlen : ranking.length = nSupportedScripts)
    (hval : ∀ j : Nat, ranking[j]?.getD 0
      = paragraph.countP (classifiesTo scriptRanges j)) :
    ranking = fullTally scriptRanges paragraph := by
  apply List.ext_getElem?
  intro j
  by_cases hj : j < nSupportedScripts
  · have h1 : j < ranking.length := by omega
    have h2 : j < (fullTally scriptRanges paragraph).length := by
      rw [fullTally_length]; exact hj
    have h3 := hval j
    have h4 := fullTally_getD scriptRanges paragraph j
    rw [List.getElem?_eq_getElem h1] at h3 ⊢
    rw [List.getElem?_eq_getElem h2] at h4 ⊢
    simp only [Option.getD_some, hj, if_true] at h3 h4
    rw [h3, h4]
  · have h1 : ranking.length ≤ j := by omega
    have h2 : (fullTally scriptRanges paragraph).length ≤ j := by
      rw [fullTally_length]; omega
    rw [List.getElem?_eq_none h1, List.getElem?_eq_none h2]

/-- Every entry of the table built at startup carries in `Pos` an index below
`nSupportedScripts`, the index of its script in `supportedScripts`. -/
theorem appendScripts_pos (languageScriptRanges : List LanguageScriptRange) :
    ∀ (scripts : List Script) (ssi : Nat),
      ∀ e ∈ appendScripts languageScriptRanges ssi scripts,
        ssi ≤ e.Pos ∧ e.Pos < ssi + scripts.length ∧ scripts[e.Pos - ssi]? = some e.Script := by
  intro scripts
  induction scripts with
  | nil => intro ssi e he; simp [appendScripts] at he
  | cons script rest ih =>
    intro ssi e he
    simp only [appendScripts, List.mem_append] at he
    rcases he with he | he
    · simp only [rangesOfScript, List.mem_map, List.mem_filter, decide_eq_true_eq] at he
      obtain ⟨s, ⟨_, hs⟩, rfl⟩ := he
      simp [hs]
    · obtain ⟨h1, h2, h3⟩ := ih (ssi + 1) e he
      refine ⟨by omega, by simp only [List.length_cons]; omega, ?_⟩
      have : e.Pos - ssi = (e.Pos - (ssi + 1)) + 1 := by omega
      rw [this, List.getElem?_cons_succ]
      exact h3

theorem initializeImageDrawingStuff_pos (languageScriptRanges : List LanguageScriptRange) :
    ∀ e ∈ initializeImageDrawingStuff languageScriptRanges,
      e.Pos < nSupportedScripts ∧ supportedScripts[e.Pos]? = some e.Script := by
  intro e he
  obtain ⟨_, h2, h3⟩ := appendScripts_pos languageScriptRanges supportedScripts 0 e he
  exact ⟨by simpa using h2, by simpa using h3⟩

/-- For an index below `nSupportedScripts` the code from `gotScript` on returns the
script and the font at that index. -/
theorem gotScript_of_lt {Face : Type} (fontMap : Fin nSupportedScripts → Face)
    (detectLanguageOf : List Int → Option String) (paragraph : List Int) (k : Nat)
    (hk : k < nSupportedScripts) :
    ∃ st : ResolvedStyle Face, gotScript fontMap detectLanguageOf paragraph k = some st ∧
      supportedScripts[k]? = some st.script ∧ st.face = fontMap ⟨k, hk⟩ := by
  have hks : k < supportedScripts.length := hk
  unfold gotScript
  simp only [List.getElem?_eq_getElem hks, hk, dite_true]
  exact ⟨_, rfl, rfl, rfl⟩

/-- With all classifications below `nSupportedScripts`, the source function and the
resolver without early exit agree. -/
theorem resolve_eq_resolveByFullTally {Face : Type} (scriptRanges : List ScriptRange)
    (fontMap : Fin nSupportedScripts → Face) (detectLanguageOf : List Int → Option String)
    (p : List Int)
    (hvalid : ∀ r ∈ p, ∃ i, lookupScript scriptRanges r = some i ∧ i < nSupportedScripts) :
    getLanguageAndScriptAndDirectionAndFont scriptRanges fontMap detectLanguageOf p
      = resolveByFullTally scriptRanges fontMap detectLanguageOf p := by
  obtain ⟨found, ranking', hrun, hpost⟩ :=
    scanLoop_spec scriptRanges (p.length / 2) p 0 (List.replicate nSupportedScripts 0)
      (by simp) hvalid
  have hzero : ∀ j : Nat, (List.replicate nSupportedScripts 0)[j]?.getD 0 = 0 := by
    intro j
    by_cases hj : j < nSupportedScripts <;> simp [List.getElem?_replicate, hj]
  unfold getLanguageAndScriptAndDirectionAndFont resolveByFullTally
  simp only [hrun]
  cases found with
  | some idx =>
    obtain ⟨hidx, h2⟩ := hpost
    rw [hzero] at h2
    have hm : maxIndex (fullTally scriptRanges p) = idx := by
      apply maxIndex_eq_of_strict _ idx (by rw [fullTally_length]; exact hidx)
      intro j hj
      rw [fullTally_getD, fullTally_getD]
      simp only [hidx, if_true]
      have := countP_classifiesTo_disjoint scriptRanges j idx hj p
      by_cases hj11 : j < nSupportedScripts
      · simp only [hj11, if_true]; omega
      · simp only [hj11, if_false]; omega
    simp only [hm]
  | none =>
    obtain ⟨h1, h2⟩ := hpost
    have hr : ranking' = fullTally scriptRanges p :=
      eq_fullTally scriptRanges p ranking' h1 (fun j => by rw [h2 j, hzero]; simp)
    simp only [hr]

/-! ## Facts about quote expansion -/

theorem TrimSpace_nil : TrimSpace [] = [] := rfl

theorem spaceEncodings_ne_nil : ∀ e ∈ spaceEncodings, e ≠ [] := by decide

theorem dropLeadingSpace_length (s t : GoString) (h : dropLeadingSpace s = some t) :
    t.length < s.length := by
  obtain ⟨e, he, hf⟩ := List.exists_of_findSome?_eq_some h
  have hne := spaceEncodings_ne_nil e he
  have hpos : 0 < e.length := List.length_pos.mpr hne
  by_cases hp : e.isPrefixOf s = true
  · have hle : e.length ≤ s.length := (List.isPrefixOf_iff_prefix.mp hp).length_le
    simp only [hp, if_true, Option.some.injEq] at hf
    subst hf
    simp only [List.length_drop]
    omega
  · simp [hp] at hf

theorem dropTrailingSpace_length (s t : GoString) (h : dropTrailingSpace s = some t) :
    t.length < s.length := by
  obtain ⟨e, he, hf⟩ := List.exists_of_findSome?_eq_some h
  have hne := spaceEncodings_ne_nil e he
  have hpos : 0 < e.length := List.length_pos.mpr hne
  by_cases hp : e.isSuffixOf s = true
  · have hle : e.length ≤ s.length := (List.isSuffixOf_iff_suffix.mp hp).length_le
    simp only [hp, if_true, Option.some.injEq] at hf
    subst hf
    simp only [List.length_take]
    omega
  · simp [hp] at hf

/-- With as much fuel as the string has bytes, `trimLeft` removes all leading white
space: no leading white space is left in its result. -/
theorem trimLeft_complete : ∀ (fuel : Nat) (s : GoString), s.length ≤ fuel →
    dropLeadingSpace (trimLeft fuel s) = none := by
  intro fuel
  induction fuel with
  | zero =>
    intro s hs
    have : s = [] := List.length_eq_zero.mp (by omega)
    subst this
    rfl
  | succ fuel ih =>
    intro s hs
    unfold trimLeft
    cases h : dropLeadingSpace s with
    | none => simpa using h
    | some t =>
      have := dropLeadingSpace_length s t h
      exact ih t (by omega)

/-- With as much fuel as the string has bytes, `trimRight` removes all trailing
white space. -/
theorem trimRight_complete : ∀ (fuel : Nat) (s : GoString), s.length ≤ fuel →
    dropTrailingSpace (trimRight fuel s) = none := by
  intro fuel
  induction fuel with
  | zero =>
    intro s hs
    have : s = [] := List.length_eq_zero.mp (by omega)
    subst this
    rfl
  | succ fuel ih =>
    intro s hs
    unfold trimRight
    cases h : dropTrailingSpace s with
    | none => simpa using h
    | some t =>
      have := dropTrailingSpace_length s t h
      exact ih t (by omega)

theorem trimLeft_length_le : ∀ (fuel : Nat) (s : GoString),
    (trimLeft fuel s).length ≤ s.length := by
  intro fuel
  induction fuel with
  | zero => intro s; simp [trimLeft]
  | succ fuel ih =>
    intro s
    unfold trimLeft
    cases h : dropLeadingSpace s with
    | none => simp
    | some t =>
      have := dropLeadingSpace_length s t h
      have := ih t
      simp only
      omega

/-- The result of `TrimSpace` ends in no white space: the fuel of both removals is
enough. -/
theorem TrimSpace_no_trailing_space (s : GoString) :
    dropTrailingSpace (TrimSpace s) = none :=
  trimRight_complete _ _ (trimLeft_length_le _ _)

/-- Lines without a match are appended to the blocks one by one, and no call of
`getEvent` is made. -/
theorem lineLoop_no_match (matcher : Matcher) (BLOCK : GoString)
    (getEvent : Nat → GoString → Option GoString) :
    ∀ (lines blocks : List GoString) (fetches : Nat),
      (∀ line ∈ lines, matcher.FindAllStringSubmatchIndex line = []) →
      lineLoop matcher BLOCK getEvent lines blocks fetches
        = some (blocks ++ lines, fetches) := by
  intro lines
  induction lines with
  | nil => intro blocks fetches _; simp [lineLoop]
  | cons line rest ih =>
    intro blocks fetches h
    unfold lineLoop
    rw [h line (List.mem_cons_self _ _)]
    simp only
    rw [ih _ _ (fun l hl => h l (List.mem_cons_of_mem _ hl))]
    simp

/-- The loop over the matches of a line does not fail when every match is a span
inside the line whose text matches again with at least 6 bytes and `b` is an index
of `blocks`; it then runs once per match and keeps `b` an index of `blocks`. -/
theorem matchLoop_returns (matcher : Matcher) (BLOCK : GoString)
    (getEvent : Nat → GoString → Option GoString) (line : GoString) :
    ∀ (spans : List (Nat × Nat)) (st : MatchLoopState),
      (∀ sp ∈ spans, sp.1 ≤ sp.2 ∧ sp.2 ≤ line.length ∧
        ∃ submatch0, (matcher.FindStringSubmatch ((line.take sp.2).drop sp.1))[0]?
            = some submatch0 ∧ 6 ≤ submatch0.length) →
      st.b < st.blocks.length →
      ∃ st', matchLoop matcher BLOCK getEvent line spans st = some st' ∧
        st'.b < st'.blocks.length ∧ st'.i = st.i + spans.length := by
  intro spans
  induction spans with
  | nil => intro st _ hb; exact ⟨st, rfl, hb, by simp⟩
  | cons sp rest ih =>
    intro st hok hb
    obtain ⟨h1, h2, sub0, hsub, h6⟩ := hok sp (List.mem_cons_self _ _)
    have hrest := fun sp' (h : sp' ∈ rest) => hok sp' (List.mem_cons_of_mem _ h)
    unfold matchLoop
    simp only [sliceBetween, h1, h2, and_self, if_true, hsub, sliceFrom, h6]
    cases hget : getEvent st.fetches (List.drop 6 sub0) with
    | none =>
      simp only [List.getElem?_eq_getElem hb]
      obtain ⟨st', hrun, hb', hi'⟩ := ih
        { blocks := st.blocks.set st.b (st.blocks[st.b] ++ (line.take sp.2).drop sp.1),
          i := st.i + 1, b := st.b, fetches := st.fetches + 1 }
        hrest (by simpa using hb)
      refine ⟨st', hrun, hb', ?_⟩
      rw [hi']; simp only [List.length_cons]; push_cast; ring
    | some content =>
      simp only
      obtain ⟨st', hrun, hb', hi'⟩ := ih
        { blocks := st.blocks ++ [BLOCK ++ bytes " " ++ content],
          i := st.i + 1, b := st.b + 1, fetches := st.fetches + 1 }
        hrest (by simp; omega)
      refine ⟨st', hrun, hb', ?_⟩
      rw [hi']; simp only [List.length_cons]; push_cast; ring

/-- The loop over the lines does not fail when the matches of every line are usable. -/
theorem lineLoop_returns (matcher : Matcher) (BLOCK : GoString)
    (getEvent : Nat → GoString → Option GoString) :
    ∀ (lines blocks : List GoString) (fetches : Nat),
      (∀ line ∈ lines, SpansOK matcher line) →
      ∃ out, lineLoop matcher BLOCK getEvent lines blocks fetches = some out := by
  intro lines
  induction lines with
  | nil => intro blocks fetches _; exact ⟨_, rfl⟩
  | cons line rest ih =>
    intro blocks fetches hok
    have hrest := fun l (h : l ∈ rest) => hok l (List.mem_cons_of_mem _ h)
    obtain ⟨hspans, _⟩ := hok line (List.mem_cons_self _ _)
    unfold lineLoop
    cases hm : matcher.FindAllStringSubmatchIndex line with
    | nil => exact ih _ _ hrest
    | cons first more =>
      rw [hm] at hspans
      obtain ⟨hf1, hf2, _⟩ := hspans first (List.mem_cons_self _ _)
      have hlead : first.1 ≤ line.length := by omega
      simp only [sliceBetween, Nat.zero_le, hlead, and_self, if_true]
      obtain ⟨st, hrun, _, hi⟩ := matchLoop_returns matcher BLOCK getEvent line
        (first :: more)
        { blocks := blocks ++ [line.take first.1 |>.drop 0], i := -1, b := 0,
          fetches := fetches }
        hspans (by simp)
      simp only [List.drop_zero] at hrun
      simp only [List.drop_zero, hrun]
      have hi' : st.i = (more.length : Int) := by
        rw [hi]; simp only [List.length_cons]; push_cast; ring
      have hnn : ¬ st.i < 0 := by omega
      have hnat : st.i.toNat = more.length := by omega
      have hlt : more.length < (first :: more).length := by simp
      simp only [hnn, if_false, hnat, List.getElem?_eq_getElem hlt]
      obtain ⟨_, hl2, _⟩ := hspans _ (List.getElem_mem hlt)
      simp only [sliceFrom, hl2, if_true]
      split
      · exact ih _ _ hrest
      · exact ih _ _ hrest
/-! ## Facts about the relay filter and `strings.Split` -/

theorem excludedLoop_false (relay : GoString) :
    ∀ excludedRelays : List GoString, excludedLoop relay excludedRelays = false := by
  intro excludedRelays
  induction excludedRelays with
  | nil => rfl
  | cons excluded rest ih => simp [excludedLoop, ih]

/-- The relay filter keeps, in order and with the protocol trimmed, exactly the
relays that do not contain `/npub1`; the list `excludedRelays` has no effect. -/
theorem authorRelaysLoop_eq (excludedRelays : List GoString)
    (trimProtocol : GoString → GoString) :
    ∀ (rawAuthorRelays authorRelays : List GoString),
      authorRelaysLoop excludedRelays trimProtocol rawAuthorRelays authorRelays
        = authorRelays ++ (rawAuthorRelays.filter
            (fun relay => !Contains relay (bytes "/npub1"))).map trimProtocol := by
  intro raw
  induction raw with
  | nil => intro acc; simp [authorRelaysLoop]
  | cons relay rest ih =>
    intro acc
    unfold authorRelaysLoop
    simp only [excludedLoop_false, Bool.false_eq_true, if_false]
    by_cases h : Contains relay (bytes "/npub1") = true
    · simp [h, ih]
    · simp [h, ih]

theorem Split_ne_nil (sep : UInt8) : ∀ s : GoString, Split sep s ≠ [] := by
  intro s
  induction s with
  | nil => simp [Split]
  | cons c rest ih =>
    unfold Split
    by_cases h : c = sep
    · simp [h]
    · simp only [h, if_false]
      split <;> simp

/-- The function `strings.Split` returns one element more than there are separators. -/
theorem Split_length (sep : UInt8) : ∀ s : GoString,
    (Split sep s).length = s.count sep + 1 := by
  intro s
  induction s with
  | nil => simp [Split]
  | cons c rest ih =>
    unfold Split
    by_cases h : c = sep
    · subst h; simp [ih]
    · simp only [h, if_false]
      have hc : List.count sep (c :: rest) = List.count sep rest := by
        rw [List.count_cons]; simp [h]
      rw [hc, ← ih]
      split
      · next heq => exact absurd heq (Split_ne_nil sep rest)
      · next heq => simp [heq]

/-! ## Facts about `cropToSquare` -/

theorem Image.Set_Bounds (img : Image) (x y : Int) (c : RGBA) :
    (img.Set x y c).Bounds = img.Bounds := by
  unfold Image.Set
  split <;> rfl

theorem Image.Set_At (img : Image) (x y : Int) (c : RGBA) (x' y' : Int) :
    (img.Set x y c).At x' y'
      = if img.Bounds.contains x y = true ∧ x' = x ∧ y' = y then c else img.At x' y' := by
  unfold Image.Set
  by_cases h : img.Bounds.contains x y = true
  · simp [h]
  · simp [h]

theorem mem_range_cast (n : Nat) (z : Int) :
    z ∈ (List.range n).map (fun k : Nat => (k : Int)) ↔ 0 ≤ z ∧ z < n := by
  simp only [List.mem_map, List.mem_range]
  constructor
  · rintro ⟨k, hk, rfl⟩
    omega
  · rintro ⟨h0, hn⟩
    exact ⟨z.toNat, by omega, by omega⟩

/-- Writing the colours `g x y` for one `x` and a list of `y`: the bounds stay, and
the points written, those of the list inside the bounds, hold `g`. -/
theorem foldl_Set_column (g : Int → Int → RGBA) (x : Int) :
    ∀ (ys : List Nat) (sq : Image),
      (ys.foldl (fun sq y => sq.Set x (y : Int) (g x y)) sq).Bounds = sq.Bounds ∧
      ∀ x' y' : Int, (ys.foldl (fun sq y => sq.Set x (y : Int) (g x y)) sq).At x' y'
        = if x' = x ∧ y' ∈ ys.map (fun k : Nat => (k : Int)) ∧
              sq.Bounds.contains x' y' = true
          then g x' y' else sq.At x' y' := by
  intro ys
  induction ys with
  | nil => intro sq; simp
  | cons y ys ih =>
    intro sq
    obtain ⟨hb, hat⟩ := ih (sq.Set x (y : Int) (g x y))
    simp only [List.foldl_cons]
    refine ⟨by rw [hb, Image.Set_Bounds], fun x' y' => ?_⟩
    rw [hat, Image.Set_Bounds, Image.Set_At]
    by_cases hx : x' = x
    · subst hx
      by_cases hy : y' = (y : Int)
      · subst hy
        by_cases hc : sq.Bounds.contains x' (y : Int) = true <;> simp [hc]
      · by_cases hm : y' ∈ ys.map (fun k : Nat => (k : Int)) <;>
          by_cases hc : sq.Bounds.contains x' y' = true <;> simp [hy, hm, hc]
    · simp [hx]

/-- Running the inner loop for a list of `x`. -/
theorem foldl_cropColumn (img : Image) (size : Int) :
    ∀ (xs : List Nat) (sq : Image),
      (xs.foldl (cropColumn img size) sq).Bounds = sq.Bounds ∧
      ∀ x' y' : Int, (xs.foldl (cropColumn img size) sq).At x' y'
        = if x' ∈ xs.map (fun k : Nat => (k : Int)) ∧ (0 ≤ y' ∧ y' < size.toNat) ∧
              sq.Bounds.contains x' y' = true
          then img.At (x' + (img.Bounds.Dx - size).tdiv 2)
            (y' + (img.Bounds.Dy - size).tdiv 2)
          else sq.At x' y' := by
  intro xs
  induction xs with
  | nil => intro sq; simp
  | cons x xs ih =>
    intro sq
    obtain ⟨hb, hat⟩ := ih (cropColumn img size sq x)
    obtain ⟨hcb, hcat⟩ := foldl_Set_column
      (fun a b => img.At (a + (img.Bounds.Dx - size).tdiv 2)
        (b + (img.Bounds.Dy - size).tdiv 2)) (x : Int) (List.range size.toNat) sq
    have hcb' : (cropColumn img size sq x).Bounds = sq.Bounds := hcb
    have hcat' : ∀ x' y' : Int, (cropColumn img size sq x).At x' y'
        = if x' = (x : Int) ∧ y' ∈ (List.range size.toNat).map (fun k : Nat => (k : Int)) ∧
              sq.Bounds.contains x' y' = true
          then img.At (x' + (img.Bounds.Dx - size).tdiv 2)
            (y' + (img.Bounds.Dy - size).tdiv 2)
          else sq.At x' y' := hcat
    simp only [List.foldl_cons]
    refine ⟨by rw [hb, hcb'], fun x' y' => ?_⟩
    rw [hat, hcb', hcat']
    simp only [mem_range_cast, List.map_cons, List.mem_cons]
    by_cases h1 : x' = (x : Int)
    · subst h1
      by_cases h2 : (x : Int) ∈ xs.map (fun k : Nat => (k : Int)) <;>
        by_cases h3 : 0 ≤ y' ∧ y' < (size.toNat : Int) <;>
        by_cases h4 : sq.Bounds.contains (x : Int) y' = true <;>
        simp only [h2, h3, h4, true_and, and_true, false_and, and_false, true_or, or_true,
          false_or, or_false, if_true, if_false, and_self, Bool.false_eq_true]
    · by_cases h2 : x' ∈ xs.map (fun k : Nat => (k : Int)) <;>
        by_cases h3 : 0 ≤ y' ∧ y' < (size.toNat : Int) <;>
        by_cases h4 : sq.Bounds.contains x' y' = true <;>
        simp only [h1, h2, h3, h4, true_and, and_true, false_and, and_false, true_or,
          or_true, false_or, or_false, if_true, if_false, and_self, Bool.false_eq_true]

/-- The image returned by `cropToSquare` when the source has non-negative width and
height: its bounds are the square of side `size` at the origin, and its colour at a
point of the square is the colour `At` returns at that point shifted by
`((dx - size) / 2, (dy - size) / 2)`; elsewhere it is the zero colour. -/
theorem cropToSquare_spec (img : Image) (hx : 0 ≤ img.Bounds.Dx) (hy : 0 ≤ img.Bounds.Dy) :
    (cropToSquare img).Bounds = ⟨0, 0, min img.Bounds.Dx img.Bounds.Dy,
        min img.Bounds.Dx img.Bounds.Dy⟩ ∧
    ∀ x y : Int, (cropToSquare img).At x y
      = if 0 ≤ x ∧ x < min img.Bounds.Dx img.Bounds.Dy ∧
            0 ≤ y ∧ y < min img.Bounds.Dx img.Bounds.Dy
        then img.At (x + (img.Bounds.Dx - min img.Bounds.Dx img.Bounds.Dy).tdiv 2)
          (y + (img.Bounds.Dy - min img.Bounds.Dx img.Bounds.Dy).tdiv 2)
        else RGBA.zero := by
  have hs : 0 ≤ min img.Bounds.Dx img.Bounds.Dy := le_min hx hy
  obtain ⟨hb, hat⟩ := foldl_cropColumn img (min img.Bounds.Dx img.Bounds.Dy)
    (List.range (min img.Bounds.Dx img.Bounds.Dy).toNat)
    (NewRGBA (Rect 0 0 (min img.Bounds.Dx img.Bounds.Dy) (min img.Bounds.Dx img.Bounds.Dy)))
  have hrect : Rect 0 0 (min img.Bounds.Dx img.Bounds.Dy) (min img.Bounds.Dx img.Bounds.Dy)
      = ⟨0, 0, min img.Bounds.Dx img.Bounds.Dy, min img.Bounds.Dx img.Bounds.Dy⟩ := by
    have : ¬ (0 > min img.Bounds.Dx img.Bounds.Dy) := by omega
    simp [Rect, this]
  have hnat : ((min img.Bounds.Dx img.Bounds.Dy).toNat : Int)
      = min img.Bounds.Dx img.Bounds.Dy := Int.toNat_of_nonneg hs
  have hdef : cropToSquare img
      = List.foldl (cropColumn img (min img.Bounds.Dx img.Bounds.Dy))
          (NewRGBA (Rect 0 0 (min img.Bounds.Dx img.Bounds.Dy)
            (min img.Bounds.Dx img.Bounds.Dy)))
          (List.range (min img.Bounds.Dx img.Bounds.Dy).toNat) := rfl
  rw [hdef]
  refine ⟨?_, fun x y => ?_⟩
  · rw [hb]; simp only [NewRGBA]; exact hrect
  · rw [hat]
    simp only [mem_range_cast, hnat, NewRGBA, hrect, Rectangle.contains, decide_eq_true_eq]
    by_cases h : 0 ≤ x ∧ x < min img.Bounds.Dx img.Bounds.Dy ∧
        0 ≤ y ∧ y < min img.Bounds.Dx img.Bounds.Dy
    · obtain ⟨h1, h2, h3, h4⟩ := h
      simp [h1, h2, h3, h4]
    · have h' : ¬ ((0 ≤ x ∧ x < min img.Bounds.Dx img.Bounds.Dy) ∧
          (0 ≤ y ∧ y < min img.Bounds.Dx img.Bounds.Dy) ∧
          0 ≤ x ∧ x < min img.Bounds.Dx img.Bounds.Dy ∧
          0 ≤ y ∧ y < min img.Bounds.Dx img.Bounds.Dy) := by
        intro hh; exact h hh.2.2
      rw [if_neg h', if_neg h]

/-- Applying `cropToSquare` a second time changes nothing. -/
theorem cropToSquare_idempotent (img : Image) (hx : 0 ≤ img.Bounds.Dx)
    (hy : 0 ≤ img.Bounds.Dy) :
    cropToSquare (cropToSquare img) = cropToSquare img := by
  obtain ⟨hb, hat⟩ := cropToSquare_spec img hx hy
  have hs : 0 ≤ min img.Bounds.Dx img.Bounds.Dy := le_min hx hy
  have hdx : (cropToSquare img).Bounds.Dx = min img.Bounds.Dx img.Bounds.Dy := by
    rw [hb]; simp [Rectangle.Dx]
  have hdy : (cropToSquare img).Bounds.Dy = min img.Bounds.Dx img.Bounds.Dy := by
    rw [hb]; simp [Rectangle.Dy]
  obtain ⟨hb2, hat2⟩ := cropToSquare_spec (cropToSquare img) (by rw [hdx]; exact hs)
    (by rw [hdy]; exact hs)
  rw [hdx, hdy, min_self] at hb2 hat2
  have hbounds : (cropToSquare (cropToSquare img)).Bounds = (cropToSquare img).Bounds := by
    rw [hb2, hb]
  have hpix : (cropToSquare (cropToSquare img)).At = (cropToSquare img).At := by
    funext x y
    rw [hat2]
    simp only [sub_self, Int.zero_tdiv, add_zero]
    by_cases h : 0 ≤ x ∧ x < min img.Bounds.Dx img.Bounds.Dy ∧
        0 ≤ y ∧ y < min img.Bounds.Dx img.Bounds.Dy
    · rw [if_pos h]
    · rw [if_neg h, hat, if_neg h]
  cases hc : cropToSquare (cropToSquare img) with
  | mk b2 a2 =>
    cases hc1 : cropToSquare img with
    | mk b1 a1 =>
      rw [hc, hc1] at hbounds hpix
      simp only at hbounds hpix
      rw [hbounds, hpix]

/-! ## Facts about `draw.DrawMask` and `roundImage` -/

theorem mem_map_cast_iff (ks : List Nat) (z : Int) :
    z ∈ ks.map (fun k : Nat => (k : Int)) ↔ 0 ≤ z ∧ z.toNat ∈ ks := by
  simp only [List.mem_map]
  constructor
  · rintro ⟨k, hk, rfl⟩
    exact ⟨by omega, by simpa using hk⟩
  · rintro ⟨h0, hk⟩
    exact ⟨z.toNat, hk, by omega⟩

/-- One row of pixel updates, each new colour computed from the colour in place:
the bounds stay, and the pixels of the row inside the bounds are updated once. -/
theorem foldl_update_row (g : Nat → RGBA → RGBA) (x0 y : Int) :
    ∀ (ks : List Nat), ks.Nodup → ∀ (dst : Image),
      (ks.foldl (fun dst (k : Nat) => dst.Set (x0 + k) y (g k (dst.At (x0 + k) y)))
        dst).Bounds = dst.Bounds ∧
      ∀ x' y' : Int,
        (ks.foldl (fun dst (k : Nat) => dst.Set (x0 + k) y (g k (dst.At (x0 + k) y)))
          dst).At x' y'
          = if y' = y ∧ (x' - x0) ∈ ks.map (fun k : Nat => (k : Int)) ∧
                dst.Bounds.contains x' y' = true
            then g (x' - x0).toNat (dst.At x' y') else dst.At x' y' := by
  intro ks
  induction ks with
  | nil => intro _ dst; simp
  | cons k ks ih =>
    intro hnd dst
    obtain ⟨hk, hnd'⟩ := List.nodup_cons.mp hnd
    obtain ⟨hb, hat⟩ := ih hnd' (dst.Set (x0 + k) y (g k (dst.At (x0 + k) y)))
    simp only [List.foldl_cons]
    refine ⟨by rw [hb, Image.Set_Bounds], fun x' y' => ?_⟩
    rw [hat, Image.Set_Bounds, Image.Set_At]
    simp only [List.map_cons, List.mem_cons]
    by_cases hy : y' = y
    · subst hy
      by_cases hx : x' = x0 + (k : Int)
      · subst hx
        have e1 : x0 + (k : Int) - x0 = (k : Int) := by omega
        have hnot : ¬ ((k : Int) ∈ ks.map (fun k : Nat => (k : Int))) := by
          rw [mem_map_cast_iff]; simpa using hk
        simp only [e1, hnot, Int.toNat_ofNat, true_and, false_and, and_true, true_or,
          if_false, and_self]
      · have hne : ¬ (x' - x0 = (k : Int)) := by omega
        simp only [hx, hne, true_and, false_and, and_false, false_or, if_false]
    · simp only [hy, false_and, and_false, if_false]

/-- Rows of pixel updates: every pixel of the grid inside the bounds is updated
once, from the colour it had at the start. -/
theorem foldl_update_rows (G : Nat → Nat → RGBA → RGBA) (x0 y0 : Int) (ks : List Nat)
    (hks : ks.Nodup) :
    ∀ (js : List Nat), js.Nodup → ∀ (dst : Image),
      (js.foldl (fun dst (j : Nat) =>
          ks.foldl (fun dst (k : Nat) =>
            dst.Set (x0 + k) (y0 + j) (G j k (dst.At (x0 + k) (y0 + j)))) dst)
        dst).Bounds = dst.Bounds ∧
      ∀ x' y' : Int,
        (js.foldl (fun dst (j : Nat) =>
            ks.foldl (fun dst (k : Nat) =>
              dst.Set (x0 + k) (y0 + j) (G j k (dst.At (x0 + k) (y0 + j)))) dst)
          dst).At x' y'
          = if (y' - y0) ∈ js.map (fun j : Nat => (j : Int)) ∧
                (x' - x0) ∈ ks.map (fun k : Nat => (k : Int)) ∧
                dst.Bounds.contains x' y' = true
            then G (y' - y0).toNat (x' - x0).toNat (dst.At x' y') else dst.At x' y' := by
  intro js
  induction js with
  | nil => intro _ dst; simp
  | cons j js ih =>
    intro hnd dst
    obtain ⟨hj, hnd'⟩ := List.nodup_cons.mp hnd
    obtain ⟨hrb, hrat⟩ := foldl_update_row (G j) x0 (y0 + j) ks hks dst
    obtain ⟨hb, hat⟩ := ih hnd'
      (ks.foldl (fun dst (k : Nat) =>
        dst.Set (x0 + k) (y0 + j) (G j k (dst.At (x0 + k) (y0 + j)))) dst)
    simp only [List.foldl_cons]
    refine ⟨by rw [hb, hrb], fun x' y' => ?_⟩
    rw [hat, hrb, hrat]
    simp only [List.map_cons, List.mem_cons]
    by_cases hy : y' = y0 + (j : Int)
    · subst hy
      have e1 : y0 + (j : Int) - y0 = (j : Int) := by omega
      have hnot : ¬ ((j : Int) ∈ js.map (fun j : Nat => (j : Int))) := by
        rw [mem_map_cast_iff]; simpa using hj
      simp only [e1, hnot, Int.toNat_ofNat, true_and, false_and, true_or, if_false]
    · have hne : ¬ (y' - y0 = (j : Int)) := by omega
      simp only [hy, hne, false_and, false_or, if_false]

/-- What `drawRGBA` leaves in the destination: inside `r` and the bounds of the
destination every pixel is the `draw.Over` step of the pixel in place with the source
pixel and the mask alpha at the same distance from `sp` and `mp`; every other pixel
is unchanged. -/
theorem drawRGBA_spec (dst : Image) (r : Rectangle) (src : ColorImage) (spX spY : Int)
    (mask : Image) (mpX mpY : Int) :
    (drawRGBA dst r src spX spY mask mpX mpY).Bounds = dst.Bounds ∧
    ∀ x' y' : Int, (drawRGBA dst r src spX spY mask mpX mpY).At x' y'
      = if r.contains x' y' = true ∧ dst.Bounds.contains x' y' = true
        then overPixel (dst.At x' y')
          (src.At (spX + (x' - r.MinX)) (spY + (y' - r.MinY)))
          (mask.At (mpX + (x' - r.MinX)) (mpY + (y' - r.MinY))).toColor.a.toNat
        else dst.At x' y' := by
  obtain ⟨hb, hat⟩ := foldl_update_rows
    (fun (j k : Nat) (old : RGBA) =>
      overPixel old (src.At (spX + k) (spY + j))
        (mask.At (mpX + k) (mpY + j)).toColor.a.toNat)
    r.MinX r.MinY (List.range (r.MaxX - r.MinX).toNat) (List.nodup_range _)
    (List.range (r.MaxY - r.MinY).toNat) (List.nodup_range _) dst
  have hb' : (drawRGBA dst r src spX spY mask mpX mpY).Bounds = dst.Bounds := hb
  have hat' : ∀ x' y' : Int, (drawRGBA dst r src spX spY mask mpX mpY).At x' y'
      = if (y' - r.MinY) ∈ (List.range (r.MaxY - r.MinY).toNat).map
              (fun j : Nat => (j : Int)) ∧
            (x' - r.MinX) ∈ (List.range (r.MaxX - r.MinX).toNat).map
              (fun k : Nat => (k : Int)) ∧
            dst.Bounds.contains x' y' = true
        then overPixel (dst.At x' y')
          (src.At (spX + ((x' - r.MinX).toNat : Int)) (spY + ((y' - r.MinY).toNat : Int)))
          (mask.At (mpX + ((x' - r.MinX).toNat : Int))
            (mpY + ((y' - r.MinY).toNat : Int))).toColor.a.toNat
        else dst.At x' y' := hat
  refine ⟨hb', fun x' y' => ?_⟩
  rw [hat']
  simp only [mem_range_cast]
  by_cases hc : r.contains x' y' = true ∧ dst.Bounds.contains x' y' = true
  · obtain ⟨hr, hd⟩ := hc
    have hr' := hr
    simp only [Rectangle.contains, decide_eq_true_eq] at hr'
    have hcond : (0 ≤ y' - r.MinY ∧ y' - r.MinY < ((r.MaxY - r.MinY).toNat : Int)) ∧
        (0 ≤ x' - r.MinX ∧ x' - r.MinX < ((r.MaxX - r.MinX).toNat : Int)) ∧
        dst.Bounds.contains x' y' = true :=
      ⟨⟨by omega, by omega⟩, ⟨by omega, by omega⟩, hd⟩
    have ex : ((x' - r.MinX).toNat : Int) = x' - r.MinX := Int.toNat_of_nonneg (by omega)
    have ey : ((y' - r.MinY).toNat : Int) = y' - r.MinY := Int.toNat_of_nonneg (by omega)
    rw [if_pos hcond, if_pos ⟨hr, hd⟩, ex, ey]
  · have hcond : ¬ ((0 ≤ y' - r.MinY ∧ y' - r.MinY < ((r.MaxY - r.MinY).toNat : Int)) ∧
        (0 ≤ x' - r.MinX ∧ x' - r.MinX < ((r.MaxX - r.MinX).toNat : Int)) ∧
        dst.Bounds.contains x' y' = true) := by
      rintro ⟨⟨h1, h2⟩, ⟨h3, h4⟩, hd⟩
      apply hc
      refine ⟨?_, hd⟩
      simp only [Rectangle.contains, decide_eq_true_eq]
      omega
    rw [if_neg hcond, if_neg hc]

theorem Rectangle.Intersect_self (r : Rectangle) (hne : r.Empty = false) :
    r.Intersect r = r := by
  unfold Rectangle.Intersect
  simp only [lt_self_iff_false, gt_iff_lt, if_false]
  have : ({ MinX := r.MinX, MinY := r.MinY, MaxX := r.MaxX, MaxY := r.MaxY } : Rectangle)
      = r := rfl
  rw [this, hne]
  simp

theorem Rectangle.Add_zero (r : Rectangle) : r.Add 0 0 = r := by
  simp [Rectangle.Add]

/-- For a source whose bounds start at (0, 0) and are not empty, `roundImage` returns
an image with the bounds of the source; inside them every pixel is the `draw.Over`
step of the zero colour with the source pixel and the alpha of the mask at the same
point, and elsewhere the zero colour. -/
theorem roundImage_spec (circleMask : Int → Int → Int → Int → RGBA) (img : ColorImage)
    (hw : 0 < img.Bounds.Dx) (hh : 0 < img.Bounds.Dy)
    (hx0 : img.Bounds.MinX = 0) (hy0 : img.Bounds.MinY = 0) :
    (roundImage circleMask img).Bounds = img.Bounds ∧
    ∀ x y : Int, (roundImage circleMask img).At x y
      = if img.Bounds.contains x y = true
        then overPixel RGBA.zero (img.At x y)
          (circleMask img.Bounds.Dx img.Bounds.Dy x y).toColor.a.toNat
        else RGBA.zero := by
  have hmaskB : Rect 0 0 img.Bounds.Dx img.Bounds.Dy = img.Bounds := by
    have h1 : ¬ (0 > img.Bounds.Dx) := by omega
    have h2 : ¬ (0 > img.Bounds.Dy) := by omega
    simp only [Rect, h1, h2, if_false]
    show (_ : Rectangle)
      = ⟨img.Bounds.MinX, img.Bounds.MinY, img.Bounds.MaxX, img.Bounds.MaxY⟩
    rw [Rectangle.mk.injEq]
    simp only [Rectangle.Dx, Rectangle.Dy, hx0, hy0, sub_zero, and_self]
  have hne : img.Bounds.Empty = false := by
    simp only [Rectangle.Empty, decide_eq_false_iff_not]
    simp only [Rectangle.Dx, Rectangle.Dy] at hw hh
    omega
  have hclip : clip img.Bounds img.Bounds img.Bounds 0 0 img.Bounds 0 0
      = { r := img.Bounds, spX := 0, spY := 0, mpX := 0, mpY := 0 } := by
    simp only [clip, hx0, hy0, sub_self, Rectangle.Add_zero,
      Rectangle.Intersect_self img.Bounds hne, and_self, if_true]
  obtain ⟨hb, hat⟩ := drawRGBA_spec (NewRGBA img.Bounds) img.Bounds img 0 0
    { Bounds := img.Bounds,
      At := fun x y =>
        if img.Bounds.contains x y then circleMask img.Bounds.Dx img.Bounds.Dy x y
        else RGBA.zero } 0 0
  have hdef : roundImage circleMask img
      = drawRGBA (NewRGBA img.Bounds) img.Bounds img 0 0
          { Bounds := img.Bounds,
            At := fun x y =>
              if img.Bounds.contains x y then circleMask img.Bounds.Dx img.Bounds.Dy x y
              else RGBA.zero } 0 0 := by
    simp only [roundImage, DrawMask, hmaskB, NewRGBA, hclip, hne, Bool.false_eq_true,
      if_false]
  rw [hdef]
  refine ⟨hb, fun x y => ?_⟩
  rw [hat]
  simp only [NewRGBA, hx0, hy0, sub_zero, zero_add, and_self]
  by_cases hc : img.Bounds.contains x y = true
  · simp only [hc, if_true]
  · simp only [hc, Bool.false_eq_true, if_false]

/-- The 16-bit alpha of an 8-bit colour is its alpha times `0x101`. -/
theorem RGBA.toColor_a (c : RGBA) : c.toColor.a.toNat = c.A.toNat * 0x101 := by
  have h := UInt8.toNat_lt c.A
  simp only [RGBA.toColor]
  exact UInt16.toNat_ofNat_of_lt (by simp only [UInt16.size]; omega)

theorem overChannel_zero_mask (s : UInt16) (a : Nat) : overChannel 0 s a 0 = 0 := by
  simp [overChannel, uint32]

theorem overChannel_full_mask (s : UInt16) (a : Nat) :
    overChannel 0 s a 65535 = UInt8.ofNat (s.toNat >>> 8) := by
  have h := UInt16.toNat_lt s
  have h1 : s.toNat * 65535 % 4294967296 = s.toNat * 65535 := Nat.mod_eq_of_lt (by omega)
  simp only [overChannel, uint32, UInt8.toNat_zero, zero_mul, Nat.zero_mod, zero_add, h1,
    Nat.mod_mod]
  rw [Nat.mul_div_cancel _ (by decide : 0 < 65535)]

theorem overChannel_le (s : UInt16) (a ma : Nat) (hma : ma ≤ 65535) :
    (overChannel 0 s a ma).toNat ≤ (UInt8.ofNat (s.toNat >>> 8)).toNat := by
  have h := UInt16.toNat_lt s
  have hle : s.toNat * ma ≤ s.toNat * 65535 := Nat.mul_le_mul_left _ hma
  have h1 : s.toNat * ma % 4294967296 = s.toNat * ma := Nat.mod_eq_of_lt (by omega)
  have h2 : s.toNat * ma / 65535 ≤ s.toNat := by
    calc s.toNat * ma / 65535 ≤ s.toNat * 65535 / 65535 := Nat.div_le_div_right hle
      _ = s.toNat := Nat.mul_div_cancel _ (by decide)
  simp only [overChannel, uint32, UInt8.toNat_zero, zero_mul, Nat.zero_mod, zero_add, h1,
    Nat.mod_mod, Nat.shiftRight_eq_div_pow]
  have h3 : s.toNat * ma / 65535 / 2 ^ 8 ≤ s.toNat / 2 ^ 8 := Nat.div_le_div_right h2
  have h4 : s.toNat / 2 ^ 8 < 2 ^ 8 := by omega
  rw [UInt8.toNat_ofNat_of_lt (by simp only [UInt8.size]; omega),
    UInt8.toNat_ofNat_of_lt (by simp only [UInt8.size]; omega)]
  exact h3

/-- Where the mask is transparent the `draw.Over` step leaves the zero colour. -/
theorem overPixel_zero_mask (s : Color) : overPixel RGBA.zero s 0 = RGBA.zero := by
  simp only [overPixel, RGBA.zero, overChannel_zero_mask]

/-- Where the mask is opaque the `draw.Over` step on the zero colour gives the source
colour in the RGBA colour model, alpha included. -/
theorem overPixel_full_mask (s : Color) : overPixel RGBA.zero s 65535 = rgbaModel s := by
  simp only [overPixel, RGBA.zero, overChannel_full_mask, rgbaModel]

/-- The alpha after the `draw.Over` step on the zero colour is at most the alpha of
the source colour. -/
theorem overPixel_alpha_le (s : Color) (ma : Nat) (hma : ma ≤ 65535) :
    (overPixel RGBA.zero s ma).A.toNat ≤ (rgbaModel s).A.toNat := by
  simp only [overPixel, RGBA.zero, rgbaModel]
  exact overChannel_le s.a _ ma hma

/-! ## Claims on the classifier and the resolver -/

/-- C1, evaluated at a failing input. The library table holds the Hebrew range
U+0591..U+05F4 and the Hiragana range U+3041..U+309F, sorted and disjoint. The rune
U+05D0 lies in the Hebrew range, whose entry carries `Pos = 3`, the index of Hebrew in
`supportedScripts`; `lookupScript` returns 1, the position of that entry in
`scriptRanges`, which in `supportedScripts` is Hiragana. -/
theorem lookupScript_returns_table_position :
    WellFormedSource [⟨0x0591, 0x05F4, Script.Hebrew⟩, ⟨0x3041, 0x309F, Script.Hiragana⟩] ∧
    initializeImageDrawingStuff
        [⟨0x0591, 0x05F4, Script.Hebrew⟩, ⟨0x3041, 0x309F, Script.Hiragana⟩]
      = [⟨0x3041, 0x309F, 1, Script.Hiragana⟩, ⟨0x0591, 0x05F4, 3, Script.Hebrew⟩] ∧
    lookupScript (initializeImageDrawingStuff
        [⟨0x0591, 0x05F4, Script.Hebrew⟩, ⟨0x3041, 0x309F, Script.Hiragana⟩]) 0x05D0
      = some 1 ∧
    supportedScripts[1]? = some Script.Hiragana ∧
    supportedScripts[3]? = some Script.Hebrew := by
  decide

/-- C2, evaluated at a failing input. The library table holds, sorted and disjoint,
a Hebrew, a Thai and a Hiragana range. The table built from it lists the Hiragana
range first and is not sorted by `Start`; the binary search of `lookupScript` then
misses the Hiragana rune U+3042 and returns 0. -/
theorem initializeImageDrawingStuff_not_sorted :
    WellFormedSource [⟨0x0591, 0x05F4, Script.Hebrew⟩, ⟨0x0E01, 0x0E5B, Script.Thai⟩,
      ⟨0x3041, 0x309F, Script.Hiragana⟩] ∧
    initializeImageDrawingStuff [⟨0x0591, 0x05F4, Script.Hebrew⟩,
        ⟨0x0E01, 0x0E5B, Script.Thai⟩, ⟨0x3041, 0x309F, Script.Hiragana⟩]
      = [⟨0x3041, 0x309F, 1, Script.Hiragana⟩, ⟨0x0591, 0x05F4, 3, Script.Hebrew⟩,
          ⟨0x0E01, 0x0E5B, 4, Script.Thai⟩] ∧
    ¬ SortedByStart (initializeImageDrawingStuff [⟨0x0591, 0x05F4, Script.Hebrew⟩,
        ⟨0x0E01, 0x0E5B, Script.Thai⟩, ⟨0x3041, 0x309F, Script.Hiragana⟩]) ∧
    lookupScript (initializeImageDrawingStuff [⟨0x0591, 0x05F4, Script.Hebrew⟩,
        ⟨0x0E01, 0x0E5B, Script.Thai⟩, ⟨0x3041, 0x309F, Script.Hiragana⟩]) 0x3042
      = some 0 := by
  decide

/-- C3, evaluated at two failing inputs. With the Arabic range U+0600..U+06FF as the
only registered range, the one-letter paragraph U+0627 (Arabic) resolves to the script
Unknown with direction LTR. With a Hebrew and a Hiragana range registered, the
paragraph U+05D0 U+05D1 (Hebrew) resolves to Hiragana. -/
theorem resolve_single_script_wrong :
    (getLanguageAndScriptAndDirectionAndFont
        (initializeImageDrawingStuff [⟨0x0600, 0x06FF, Script.Arabic⟩])
        (fun i => i.val) (fun _ => none) [0x0627]).map
      (fun st => (st.script, st.direction)) = some (Script.Unknown, Direction.LTR) ∧
    (getLanguageAndScriptAndDirectionAndFont
        (initializeImageDrawingStuff
          [⟨0x0591, 0x05F4, Script.Hebrew⟩, ⟨0x3041, 0x309F, Script.Hiragana⟩])
        (fun i => i.val) (fun _ => none) [0x05D0, 0x05D1]).map
      (fun st => (st.script, st.direction)) = some (Script.Hiragana, Direction.LTR) := by
  decide

/-- C4. On the empty paragraph the scan loop runs no iteration and leaves the
ranking all zero, `maxIndex` selects index 0 from it, and the function returns the
script `supportedScripts[0]` (Unknown), the direction LTR and the font `fontMap[0]`. -/
theorem resolve_empty_paragraph {Face : Type} (scriptRanges : List ScriptRange)
    (fontMap : Fin nSupportedScripts → Face) (detectLanguageOf : List Int → Option String) :
    scanLoop scriptRanges (([] : List Int).length / 2) [] 0
        (List.replicate nSupportedScripts 0)
      = some (none, List.replicate nSupportedScripts 0) ∧
    maxIndex (List.replicate nSupportedScripts 0) = 0 ∧
    supportedScripts[0]? = some Script.Unknown ∧
    getLanguageAndScriptAndDirectionAndFont scriptRanges fontMap detectLanguageOf []
      = some { lng := (match detectLanguageOf [] with
                 | some code => code
                 | none => "en-us"),
               script := Script.Unknown,
               direction := Direction.LTR,
               face := fontMap ⟨0, by decide⟩ } := by
  refine ⟨rfl, by decide, rfl, ?_⟩
  rfl

/-- C5. When more than half of the letters of a paragraph `p` classify to the same
index `k`, all classifications being below `nSupportedScripts`, then `p` and every
reordering `q` of `p` resolve to the same script, `supportedScripts[k]`. -/
theorem resolve_majority_order_independent {Face : Type} (scriptRanges : List ScriptRange)
    (fontMap : Fin nSupportedScripts → Face) (detectLanguageOf : List Int → Option String)
    (p q : List Int) (k : Nat)
    (hvalid : ∀ r ∈ p, ∃ i, lookupScript scriptRanges r = some i ∧ i < nSupportedScripts)
    (hmaj : p.length < 2 * p.countP (classifiesTo scriptRanges k))
    (hperm : q.Perm p) :
    ∃ s, supportedScripts[k]? = some s ∧
      (getLanguageAndScriptAndDirectionAndFont scriptRanges fontMap detectLanguageOf p).map
        (fun st => st.script) = some s ∧
      (getLanguageAndScriptAndDirectionAndFont scriptRanges fontMap detectLanguageOf q).map
        (fun st => st.script) = some s := by
  obtain ⟨_, s, st, hs, hp, hst, _⟩ :=
    resolve_of_majority scriptRanges fontMap detectLanguageOf p k hvalid hmaj
  have hvalidq : ∀ r ∈ q, ∃ i,
      lookupScript scriptRanges r = some i ∧ i < nSupportedScripts :=
    fun r hr => hvalid r (hperm.mem_iff.mp hr)
  have hmajq : q.length < 2 * q.countP (classifiesTo scriptRanges k) := by
    rw [hperm.length_eq, hperm.countP_eq]; exact hmaj
  obtain ⟨_, s', st', hs', hq, hst', _⟩ :=
    resolve_of_majority scriptRanges fontMap detectLanguageOf q k hvalidq hmajq
  have hss : s' = s := by rw [hs] at hs'; exact (Option.some.inj hs').symm
  refine ⟨s, hs, ?_, ?_⟩
  · rw [hp]; simp [hst]
  · rw [hq]; simp [hst', hss]

/-- C5 at a concrete input: in the table built from a Hebrew and a Hiragana range the
letters U+05D0 and U+05D1 classify to index 1 and the letter `a` to index 0; the
paragraph U+05D0 `a` U+05D1 and its reordering `a` U+05D1 U+05D0 resolve alike. -/
theorem resolve_majority_order_independent_witness :
    ∃ s, supportedScripts[1]? = some s ∧
      (getLanguageAndScriptAndDirectionAndFont
        (initializeImageDrawingStuff
          [⟨0x0591, 0x05F4, Script.Hebrew⟩, ⟨0x3041, 0x309F, Script.Hiragana⟩])
        (fun i => i.val) (fun _ => none) [0x05D0, 0x61, 0x05D1]).map
        (fun st => st.script) = some s ∧
      (getLanguageAndScriptAndDirectionAndFont
        (initializeImageDrawingStuff
          [⟨0x0591, 0x05F4, Script.Hebrew⟩, ⟨0x3041, 0x309F, Script.Hiragana⟩])
        (fun i => i.val) (fun _ => none) [0x61, 0x05D1, 0x05D0]).map
        (fun st => st.script) = some s :=
  resolve_majority_order_independent
    (initializeImageDrawingStuff
      [⟨0x0591, 0x05F4, Script.Hebrew⟩, ⟨0x3041, 0x309F, Script.Hiragana⟩])
    (fun i => i.val) (fun _ => none) [0x05D0, 0x61, 0x05D1] [0x61, 0x05D1, 0x05D0] 1
    (by
      intro r hr
      simp only [List.mem_cons, List.mem_singleton, List.not_mem_nil, or_false] at hr
      rcases hr with rfl | rfl | rfl
      · exact ⟨1, by decide, by decide⟩
      · exact ⟨0, by decide, by decide⟩
      · exact ⟨1, by decide, by decide⟩)
    (by decide)
    (by decide)

/-! ## Claims on the binary search, the early exit and the index range -/

/-- C15. On a table sorted ascending by `Start`, with `Start ≤ End` in every entry
and pairwise disjoint entries, the binary search of `lookupScript` returns; when an
entry at position `k` contains the rune, it returns `k` (so the entry at the returned
position contains the rune, and no other entry does); when no entry contains the
rune, it returns 0. -/
theorem lookupScript_on_sorted_table (scriptRanges : List ScriptRange) (r : Int)
    (hwf : WellFormedTable scriptRanges) :
    ∃ n, lookupScript scriptRanges r = some n ∧
      (∀ (k : Nat) (entry : ScriptRange), scriptRanges[k]? = some entry →
        entry.Start ≤ r → r ≤ entry.End → n = k) ∧
      ((∀ e ∈ scriptRanges, ¬ (e.Start ≤ r ∧ r ≤ e.End)) → n = 0) := by
  obtain ⟨n, hn, _⟩ := lookupScript_returns scriptRanges r
  refine ⟨n, hn, ?_, ?_⟩
  · intro k entry hk h1 h2
    obtain ⟨hlt, hget⟩ := List.getElem?_eq_some_iff.mp hk
    have hfound := lookupScriptLoop_finds scriptRanges r hwf k hlt
      (by rw [hget]; exact ⟨h1, h2⟩) (scriptRanges.length + 1) 0 scriptRanges.length
      (by omega) (le_refl _) (Nat.zero_le _) hlt
    have : lookupScript scriptRanges r = some k := hfound
    rw [hn] at this
    exact Option.some.inj this
  · intro hout
    have := lookupScript_outside scriptRanges r hout
    rw [hn] at this
    exact Option.some.inj this

/-- C15 at a concrete input: a sorted table of a Hebrew, a Thai and a Hiragana range,
and the Thai rune U+0E10. -/
theorem lookupScript_on_sorted_table_witness :
    ∃ n, lookupScript [⟨0x0591, 0x05F4, 3, Script.Hebrew⟩, ⟨0x0E01, 0x0E5B, 4, Script.Thai⟩,
        ⟨0x3041, 0x309F, 1, Script.Hiragana⟩] 0x0E10 = some n ∧
      (∀ (k : Nat) (entry : ScriptRange),
        [(⟨0x0591, 0x05F4, 3, Script.Hebrew⟩ : ScriptRange), ⟨0x0E01, 0x0E5B, 4, Script.Thai⟩,
          ⟨0x3041, 0x309F, 1, Script.Hiragana⟩][k]? = some entry →
        entry.Start ≤ 0x0E10 → 0x0E10 ≤ entry.End → n = k) ∧
      ((∀ e ∈ [(⟨0x0591, 0x05F4, 3, Script.Hebrew⟩ : ScriptRange),
          ⟨0x0E01, 0x0E5B, 4, Script.Thai⟩, ⟨0x3041, 0x309F, 1, Script.Hiragana⟩],
        ¬ (e.Start ≤ 0x0E10 ∧ 0x0E10 ≤ e.End)) → n = 0) :=
  lookupScript_on_sorted_table
    [⟨0x0591, 0x05F4, 3, Script.Hebrew⟩, ⟨0x0E01, 0x0E5B, 4, Script.Thai⟩,
      ⟨0x3041, 0x309F, 1, Script.Hiragana⟩] 0x0E10 (by decide)

/-- C16. For a paragraph whose classifications are all below `nSupportedScripts`,
the function returns what the resolver without early exit returns: the script
`supportedScripts[m]` and the font `fontMap[m]`, where `m` is the lowest index of the
maximum of the full tally of the paragraph, whether or not the early exit was taken. -/
theorem early_exit_is_pure_optimisation {Face : Type} (scriptRanges : List ScriptRange)
    (fontMap : Fin nSupportedScripts → Face) (detectLanguageOf : List Int → Option String)
    (p : List Int)
    (hvalid : ∀ r ∈ p, ∃ i, lookupScript scriptRanges r = some i ∧ i < nSupportedScripts) :
    getLanguageAndScriptAndDirectionAndFont scriptRanges fontMap detectLanguageOf p
        = resolveByFullTally scriptRanges fontMap detectLanguageOf p ∧
      ∃ (m : Nat) (hm : m < nSupportedScripts) (st : ResolvedStyle Face),
        IsFirstMax (fullTally scriptRanges p) m ∧
        getLanguageAndScriptAndDirectionAndFont scriptRanges fontMap detectLanguageOf p
          = some st ∧
        supportedScripts[m]? = some st.script ∧ st.face = fontMap ⟨m, hm⟩ := by
  have heq := resolve_eq_resolveByFullTally scriptRanges fontMap detectLanguageOf p hvalid
  refine ⟨heq, ?_⟩
  have hne : fullTally scriptRanges p ≠ [] := by
    intro h
    have := fullTally_length scriptRanges p
    rw [h] at this
    exact absurd this (by decide)
  have hmax := maxIndex_spec (fullTally scriptRanges p) hne
  have hm : maxIndex (fullTally scriptRanges p) < nSupportedScripts := by
    have := hmax.1
    rwa [fullTally_length] at this
  obtain ⟨st, hst, hs, hf⟩ := gotScript_of_lt fontMap detectLanguageOf p _ hm
  exact ⟨_, hm, st, hmax, by rw [heq]; exact hst, hs, hf⟩

/-- C16 at a concrete input: in the table built from a Hebrew and a Hiragana range,
the paragraph U+05D0 `a` U+05D1 U+05D2, on which the early exit is taken at the last
letter. -/
theorem early_exit_is_pure_optimisation_witness :
    getLanguageAndScriptAndDirectionAndFont
        (initializeImageDrawingStuff
          [⟨0x0591, 0x05F4, Script.Hebrew⟩, ⟨0x3041, 0x309F, Script.Hiragana⟩])
        (fun i => i.val) (fun _ => none) [0x05D0, 0x61, 0x05D1, 0x05D2]
        = resolveByFullTally
          (initializeImageDrawingStuff
            [⟨0x0591, 0x05F4, Script.Hebrew⟩, ⟨0x3041, 0x309F, Script.Hiragana⟩])
          (fun i => i.val) (fun _ => none) [0x05D0, 0x61, 0x05D1, 0x05D2] ∧
      ∃ (m : Nat) (hm : m < nSupportedScripts) (st : ResolvedStyle Nat),
        IsFirstMax (fullTally (initializeImageDrawingStuff
          [⟨0x0591, 0x05F4, Script.Hebrew⟩, ⟨0x3041, 0x309F, Script.Hiragana⟩])
          [0x05D0, 0x61, 0x05D1, 0x05D2]) m ∧
        getLanguageAndScriptAndDirectionAndFont
          (initializeImageDrawingStuff
            [⟨0x0591, 0x05F4, Script.Hebrew⟩, ⟨0x3041, 0x309F, Script.Hiragana⟩])
          (fun i => i.val) (fun _ => none) [0x05D0, 0x61, 0x05D1, 0x05D2] = some st ∧
        supportedScripts[m]? = some st.script ∧
        st.face = (fun i : Fin nSupportedScripts => i.val) ⟨m, hm⟩ :=
  early_exit_is_pure_optimisation
    (initializeImageDrawingStuff
      [⟨0x0591, 0x05F4, Script.Hebrew⟩, ⟨0x3041, 0x309F, Script.Hiragana⟩])
    (fun i => i.val) (fun _ => none) [0x05D0, 0x61, 0x05D1, 0x05D2]
    (by
      intro r hr
      simp only [List.mem_cons, List.mem_singleton, List.not_mem_nil, or_false] at hr
      rcases hr with rfl | rfl | rfl | rfl
      · exact ⟨1, by decide, by decide⟩
      · exact ⟨0, by decide, by decide⟩
      · exact ⟨1, by decide, by decide⟩
      · exact ⟨1, by decide, by decide⟩)

/-- C18, evaluated at a failing input. The library table holds twelve Han ranges,
sorted and disjoint. Every entry of the table built from it carries `Pos = 9`, but for
the rune U+20000, which lies in the twelfth range, `lookupScript` returns 11, the
position of the entry; `ranking[11]` is out of range and the resolver fails. -/
theorem resolver_index_out_of_range :
    WellFormedSource [⟨0x2E80, 0x2E99, Script.Han⟩, ⟨0x2E9B, 0x2EF3, Script.Han⟩,
      ⟨0x2F00, 0x2FD5, Script.Han⟩, ⟨0x3005, 0x3005, Script.Han⟩,
      ⟨0x3007, 0x3007, Script.Han⟩, ⟨0x3021, 0x3029, Script.Han⟩,
      ⟨0x3038, 0x303B, Script.Han⟩, ⟨0x3400, 0x4DBF, Script.Han⟩,
      ⟨0x4E00, 0x9FFF, Script.Han⟩, ⟨0xF900, 0xFA6D, Script.Han⟩,
      ⟨0xFA70, 0xFAD9, Script.Han⟩, ⟨0x20000, 0x2A6DF, Script.Han⟩] ∧
    (∀ e ∈ initializeImageDrawingStuff [⟨0x2E80, 0x2E99, Script.Han⟩,
      ⟨0x2E9B, 0x2EF3, Script.Han⟩, ⟨0x2F00, 0x2FD5, Script.Han⟩,
      ⟨0x3005, 0x3005, Script.Han⟩, ⟨0x3007, 0x3007, Script.Han⟩,
      ⟨0x3021, 0x3029, Script.Han⟩, ⟨0x3038, 0x303B, Script.Han⟩,
      ⟨0x3400, 0x4DBF, Script.Han⟩, ⟨0x4E00, 0x9FFF, Script.Han⟩,
      ⟨0xF900, 0xFA6D, Script.Han⟩, ⟨0xFA70, 0xFAD9, Script.Han⟩,
      ⟨0x20000, 0x2A6DF, Script.Han⟩], e.Pos = 9) ∧
    lookupScript (initializeImageDrawingStuff [⟨0x2E80, 0x2E99, Script.Han⟩,
      ⟨0x2E9B, 0x2EF3, Script.Han⟩, ⟨0x2F00, 0x2FD5, Script.Han⟩,
      ⟨0x3005, 0x3005, Script.Han⟩, ⟨0x3007, 0x3007, Script.Han⟩,
      ⟨0x3021, 0x3029, Script.Han⟩, ⟨0x3038, 0x303B, Script.Han⟩,
      ⟨0x3400, 0x4DBF, Script.Han⟩, ⟨0x4E00, 0x9FFF, Script.Han⟩,
      ⟨0xF900, 0xFA6D, Script.Han⟩, ⟨0xFA70, 0xFAD9, Script.Han⟩,
      ⟨0x20000, 0x2A6DF, Script.Han⟩]) 0x20000 = some 11 ∧
    (getLanguageAndScriptAndDirectionAndFont
      (initializeImageDrawingStuff [⟨0x2E80, 0x2E99, Script.Han⟩,
        ⟨0x2E9B, 0x2EF3, Script.Han⟩, ⟨0x2F00, 0x2FD5, Script.Han⟩,
        ⟨0x3005, 0x3005, Script.Han⟩, ⟨0x3007, 0x3007, Script.Han⟩,
        ⟨0x3021, 0x3029, Script.Han⟩, ⟨0x3038, 0x303B, Script.Han⟩,
        ⟨0x3400, 0x4DBF, Script.Han⟩, ⟨0x4E00, 0x9FFF, Script.Han⟩,
        ⟨0xF900, 0xFA6D, Script.Han⟩, ⟨0xFA70, 0xFAD9, Script.Han⟩,
        ⟨0x20000, 0x2A6DF, Script.Han⟩])
      (fun i => i.val) (fun _ => none) [0x20000]).isNone = true := by
  decide

/-! ## Claims on quote expansion -/

/-- C6. When no line has a match, the blocks returned are the lines themselves, one
block per line in the original order, and no call of `getEvent` is made. -/
theorem quotes_without_match (matcher : Matcher) (BLOCK : GoString)
    (getEvent : Nat → GoString → Option GoString) (lines : List GoString)
    (hnone : ∀ line ∈ lines, matcher.FindAllStringSubmatchIndex line = []) :
    quotesAsBlockPrefixedText matcher BLOCK getEvent lines = some lines ∧
      lineLoop matcher BLOCK getEvent lines [] 0 = some (lines, 0) := by
  have h := lineLoop_no_match matcher BLOCK getEvent lines [] 0 hnone
  simp only [List.nil_append] at h
  exact ⟨by simp [quotesAsBlockPrefixedText, h], h⟩

/-- C6 at a concrete input: two lines, neither of which is the line the matcher
has a match for. -/
theorem quotes_without_match_witness :
    quotesAsBlockPrefixedText
        (tableMatcher [(bytes "see nostr:note1abc", [(4, 18)])]) (bytes "|")
        (fun _ _ => some (bytes "hello")) [bytes "first line", bytes "second"]
      = some [bytes "first line", bytes "second"] ∧
    lineLoop (tableMatcher [(bytes "see nostr:note1abc", [(4, 18)])]) (bytes "|")
        (fun _ _ => some (bytes "hello")) [bytes "first line", bytes "second"] [] 0
      = some ([bytes "first line", bytes "second"], 0) :=
  quotes_without_match (tableMatcher [(bytes "see nostr:note1abc", [(4, 18)])])
    (bytes "|") (fun _ _ => some (bytes "hello")) [bytes "first line", bytes "second"]
    (by decide)

/-- C7. A single line `leading ++ reference` whose only match is `reference`, ending
the line, and whose fetch succeeds with `content`, gives two blocks: `leading`, then
`BLOCK`, a space and `content`; there is no trailing block. -/
theorem quotes_one_resolved_reference (matcher : Matcher) (BLOCK : GoString)
    (getEvent : Nat → GoString → Option GoString)
    (leading reference submatch0 content : GoString)
    (hmatch : matcher.FindAllStringSubmatchIndex (leading ++ reference)
      = [(leading.length, (leading ++ reference).length)])
    (hsub : (matcher.FindStringSubmatch reference)[0]? = some submatch0)
    (h6 : 6 ≤ submatch0.length)
    (hfetch : getEvent 0 (submatch0.drop 6) = some content) :
    quotesAsBlockPrefixedText matcher BLOCK getEvent [leading ++ reference]
      = some [leading, BLOCK ++ bytes " " ++ content] := by
  have htake : List.take (leading.length + reference.length) (leading ++ reference)
      = leading ++ reference := List.take_of_length_le (by simp)
  have hdrop : List.drop (leading.length + reference.length) (leading ++ reference)
      = [] := List.drop_of_length_le (by simp)
  simp [quotesAsBlockPrefixedText, lineLoop, matchLoop, sliceBetween, sliceFrom, hmatch,
    hsub, h6, hfetch, htake, hdrop, TrimSpace_nil]

/-- C7 at the input of the spec: the line `look at nostr:note1abc` whose reference
resolves to `hello` gives the blocks `look at ` and `| hello`. -/
theorem quotes_one_resolved_reference_witness :
    quotesAsBlockPrefixedText
        (tableMatcher [(bytes "look at nostr:note1abc", [(8, 22)])]) (bytes "|")
        (fun _ nip19 => if nip19 = bytes "note1abc" then some (bytes "hello") else none)
        [bytes "look at " ++ bytes "nostr:note1abc"]
      = some [bytes "look at ", bytes "|" ++ bytes " " ++ bytes "hello"] :=
  quotes_one_resolved_reference
    (tableMatcher [(bytes "look at nostr:note1abc", [(8, 22)])]) (bytes "|")
    (fun _ nip19 => if nip19 = bytes "note1abc" then some (bytes "hello") else none)
    (bytes "look at ") (bytes "nostr:note1abc") (bytes "nostr:note1abc") (bytes "hello")
    (by decide) (by decide) (by decide) (by decide)

/-- C8 as stated fails: the line `a nostr:note1q b` with one reference whose fetch
fails gives two blocks, `a nostr:note1q` and ` b`, not the one block equal to the
line; and the line `a nostr:note1q ` gives one block that has lost its last byte. -/
theorem quotes_one_failed_reference_not_one_block :
    quotesAsBlockPrefixedText
        (tableMatcher [(bytes "a nostr:note1q b", [(2, 14)])]) (bytes "|")
        (fun _ _ => none) [bytes "a nostr:note1q b"]
      = some [bytes "a nostr:note1q", bytes " b"] ∧
    quotesAsBlockPrefixedText
        (tableMatcher [(bytes "a nostr:note1q b", [(2, 14)])]) (bytes "|")
        (fun _ _ => none) [bytes "a nostr:note1q b"]
      ≠ some [bytes "a nostr:note1q b"] ∧
    quotesAsBlockPrefixedText
        (tableMatcher [(bytes "a nostr:note1q ", [(2, 14)])]) (bytes "|")
        (fun _ _ => none) [bytes "a nostr:note1q "]
      = some [bytes "a nostr:note1q"] := by
  decide

/-- C8 as amended. A single line `leading ++ reference ++ trailing` whose only match
is `reference` and whose fetch fails gives the block `leading ++ reference`, followed
by the block `trailing` when `trailing` is not white space only. When nothing follows
the reference this is the one block equal to the line. -/
theorem quotes_one_failed_reference (matcher : Matcher) (BLOCK : GoString)
    (getEvent : Nat → GoString → Option GoString)
    (leading reference trailing submatch0 : GoString)
    (hmatch : matcher.FindAllStringSubmatchIndex (leading ++ reference ++ trailing)
      = [(leading.length, leading.length + reference.length)])
    (hsub : (matcher.FindStringSubmatch reference)[0]? = some submatch0)
    (h6 : 6 ≤ submatch0.length)
    (hfetch : getEvent 0 (submatch0.drop 6) = none) :
    quotesAsBlockPrefixedText matcher BLOCK getEvent [leading ++ reference ++ trailing]
        = some (if TrimSpace trailing ≠ [] then [leading ++ reference, trailing]
            else [leading ++ reference]) ∧
      (trailing = [] →
        quotesAsBlockPrefixedText matcher BLOCK getEvent [leading ++ reference ++ trailing]
          = some [leading ++ reference ++ trailing]) := by
  have hmain : quotesAsBlockPrefixedText matcher BLOCK getEvent
      [leading ++ reference ++ trailing]
        = some (if TrimSpace trailing ≠ [] then [leading ++ reference, trailing]
            else [leading ++ reference]) := by
    have htake : List.take (leading.length + reference.length)
        (leading ++ (reference ++ trailing)) = leading ++ reference := by
      rw [← List.append_assoc, List.take_append_eq_append_take]
      simp
    have hdrop : List.drop (leading.length + reference.length)
        (leading ++ (reference ++ trailing)) = trailing := by
      rw [← List.append_assoc, List.drop_append_eq_append_drop]
      simp
    simp only [List.append_assoc] at hmatch
    by_cases ht : TrimSpace trailing = [] <;>
      simp [quotesAsBlockPrefixedText, lineLoop, matchLoop, sliceBetween, sliceFrom,
        hmatch, hsub, h6, hfetch, htake, hdrop, ht]
  refine ⟨hmain, fun h => ?_⟩
  rw [hmain]
  subst h
  simp [TrimSpace_nil]

/-- C8 as amended, at a concrete input: `a nostr:note1q b` gives the two blocks
`a nostr:note1q` and ` b`. -/
theorem quotes_one_failed_reference_witness :
    quotesAsBlockPrefixedText
        (tableMatcher [(bytes "a nostr:note1q b", [(2, 14)])]) (bytes "|")
        (fun _ _ => none) [bytes "a " ++ bytes "nostr:note1q" ++ bytes " b"]
        = some (if TrimSpace (bytes " b") ≠ [] then
            [bytes "a " ++ bytes "nostr:note1q", bytes " b"]
            else [bytes "a " ++ bytes "nostr:note1q"]) ∧
      (bytes " b" = [] →
        quotesAsBlockPrefixedText
          (tableMatcher [(bytes "a nostr:note1q b", [(2, 14)])]) (bytes "|")
          (fun _ _ => none) [bytes "a " ++ bytes "nostr:note1q" ++ bytes " b"]
          = some [bytes "a " ++ bytes "nostr:note1q" ++ bytes " b"]) :=
  quotes_one_failed_reference
    (tableMatcher [(bytes "a nostr:note1q b", [(2, 14)])]) (bytes "|")
    (fun _ _ => none) (bytes "a ") (bytes "nostr:note1q") (bytes " b")
    (bytes "nostr:note1q") (by decide) (by decide) (by decide) rfl

/-- C9, evaluated at a failing input. The lines are `x` and `a nostr:note1q`, and the
fetch of the reference in the second line fails. When the reference is reached the
blocks are `x` and `a `, the latter emitted last; the reference text is appended to
`blocks[0]`, the block `x` of the first line. -/
theorem quotes_failed_reference_appended_to_earlier_block :
    quotesAsBlockPrefixedText
        (tableMatcher [(bytes "a nostr:note1q", [(2, 14)])]) (bytes "|")
        (fun _ _ => none) [bytes "x", bytes "a nostr:note1q"]
      = some [bytes "xnostr:note1q", bytes "a "] := by
  decide

/-- C10. When the matches of every line are spans inside the line, ascending and not
overlapping, and every matched text matches again with at least 6 bytes, the function
returns a block list whatever the outcome of each call of `getEvent`: no index and no
slice is out of range. -/
theorem quotes_never_out_of_range (matcher : Matcher) (BLOCK : GoString)
    (getEvent : Nat → GoString → Option GoString) (lines : List GoString)
    (hok : ∀ line ∈ lines, SpansOK matcher line) :
    ∃ blocks, quotesAsBlockPrefixedText matcher BLOCK getEvent lines = some blocks := by
  obtain ⟨out, hout⟩ := lineLoop_returns matcher BLOCK getEvent lines [] 0 hok
  exact ⟨out.1, by simp [quotesAsBlockPrefixedText, hout]⟩

/-- C10 at a concrete input: three lines with four references, of which the calls of
`getEvent` number 0 and 2 succeed and the others fail. -/
theorem quotes_never_out_of_range_witness :
    ∃ blocks, quotesAsBlockPrefixedText
        (tableMatcher [(bytes "a nostr:note1q b", [(2, 14)]),
          (bytes "nostr:note1qnostr:note1r", [(0, 12), (12, 24)]),
          (bytes "see nostr:note1abc", [(4, 18)])])
        (bytes "|")
        (fun n _ => if n % 2 = 0 then some (bytes "hello") else none)
        [bytes "a nostr:note1q b", bytes "plain", bytes "nostr:note1qnostr:note1r",
          bytes "see nostr:note1abc"] = some blocks :=
  quotes_never_out_of_range
    (tableMatcher [(bytes "a nostr:note1q b", [(2, 14)]),
      (bytes "nostr:note1qnostr:note1r", [(0, 12), (12, 24)]),
      (bytes "see nostr:note1abc", [(4, 18)])])
    (bytes "|")
    (fun n _ => if n % 2 = 0 then some (bytes "hello") else none)
    [bytes "a nostr:note1q b", bytes "plain", bytes "nostr:note1qnostr:note1r",
      bytes "see nostr:note1abc"]
    (by
      intro line hline
      simp only [List.mem_cons, List.mem_singleton, List.not_mem_nil, or_false] at hline
      rcases hline with rfl | rfl | rfl | rfl
      · refine ⟨?_, by decide⟩
        intro sp hsp
        have hm : (tableMatcher [(bytes "a nostr:note1q b", [(2, 14)]),
            (bytes "nostr:note1qnostr:note1r", [(0, 12), (12, 24)]),
            (bytes "see nostr:note1abc", [(4, 18)])]).FindAllStringSubmatchIndex
            (bytes "a nostr:note1q b") = [(2, 14)] := by decide
        rw [hm] at hsp
        simp only [List.mem_singleton] at hsp
        subst hsp
        exact ⟨by decide, by decide, _, rfl, by decide⟩
      · refine ⟨?_, by decide⟩
        intro sp hsp
        have hm : (tableMatcher [(bytes "a nostr:note1q b", [(2, 14)]),
            (bytes "nostr:note1qnostr:note1r", [(0, 12), (12, 24)]),
            (bytes "see nostr:note1abc", [(4, 18)])]).FindAllStringSubmatchIndex
            (bytes "plain") = [] := by decide
        rw [hm] at hsp
        exact absurd hsp (List.not_mem_nil _)
      · refine ⟨?_, by decide⟩
        intro sp hsp
        have hm : (tableMatcher [(bytes "a nostr:note1q b", [(2, 14)]),
            (bytes "nostr:note1qnostr:note1r", [(0, 12), (12, 24)]),
            (bytes "see nostr:note1abc", [(4, 18)])]).FindAllStringSubmatchIndex
            (bytes "nostr:note1qnostr:note1r") = [(0, 12), (12, 24)] := by decide
        rw [hm] at hsp
        simp only [List.mem_cons, List.mem_singleton, List.not_mem_nil, or_false] at hsp
        rcases hsp with rfl | rfl
        · exact ⟨by decide, by decide, _, rfl, by decide⟩
        · exact ⟨by decide, by decide, _, rfl, by decide⟩
      · refine ⟨?_, by decide⟩
        intro sp hsp
        have hm : (tableMatcher [(bytes "a nostr:note1q b", [(2, 14)]),
            (bytes "nostr:note1qnostr:note1r", [(0, 12), (12, 24)]),
            (bytes "see nostr:note1abc", [(4, 18)])]).FindAllStringSubmatchIndex
            (bytes "see nostr:note1abc") = [(4, 18)] := by decide
        rw [hm] at hsp
        simp only [List.mem_singleton] at hsp
        subst hsp
        exact ⟨by decide, by decide, _, rfl, by decide⟩)

/-- C17, evaluated at a failing input. The line `a nostr:note1q and nostr:note1r` has
two references and both fetches fail. The only block returned is
`a nostr:note1qnostr:note1r`: the text ` and ` between the two references is in no
block, and the blocks joined are not the line. -/
theorem quotes_text_between_references_dropped :
    quotesAsBlockPrefixedText
        (tableMatcher [(bytes "a nostr:note1q and nostr:note1r", [(2, 14), (19, 31)])])
        (bytes "|") (fun _ _ => none) [bytes "a nostr:note1q and nostr:note1r"]
      = some [bytes "a nostr:note1qnostr:note1r"] ∧
    (quotesAsBlockPrefixedText
        (tableMatcher [(bytes "a nostr:note1q and nostr:note1r", [(2, 14), (19, 31)])])
        (bytes "|") (fun _ _ => none) [bytes "a nostr:note1q and nostr:note1r"]).map
        List.flatten
      ≠ some (bytes "a nostr:note1q and nostr:note1r") := by
  decide

/-! ## Claims on `data.go` -/

/-- C19, evaluated at a failing input. With `nostr.band` in `excludedRelays`, the raw
relays `wss://relay.nostr.band`, `wss://filter.nostr.wine/npub1abc` and `wss://nos.lol`
leave in `data.authorRelays` the first and the third, trimmed: the relay that contains
an entry of `excludedRelays` is kept, only the one containing `/npub1` is skipped. -/
theorem authorRelays_keeps_excluded_relay (trimProtocol : GoString → GoString) :
    Contains (bytes "wss://relay.nostr.band") (bytes "nostr.band") = true ∧
    authorRelaysLoop [bytes "nostr.band"] trimProtocol
        [bytes "wss://relay.nostr.band", bytes "wss://filter.nostr.wine/npub1abc",
          bytes "wss://nos.lol"] []
      = [trimProtocol (bytes "wss://relay.nostr.band"), trimProtocol (bytes "wss://nos.lol")] := by
  refine ⟨by decide, ?_⟩
  rw [authorRelaysLoop_eq]
  have hf : [bytes "wss://relay.nostr.band", bytes "wss://filter.nostr.wine/npub1abc",
      bytes "wss://nos.lol"].filter (fun relay => !Contains relay (bytes "/npub1"))
      = [bytes "wss://relay.nostr.band", bytes "wss://nos.lol"] := by decide
  rw [hf]
  rfl

/-- C20, evaluated at a failing input. For the metadata with `M = "video"`, `IsImage`
is false and `IsVideo` is true, `strings.Split(M, "/")` has the single element `video`,
and the index 1 used for `data.videoType` is out of range. -/
theorem isVideo_without_slash :
    Kind1063Metadata.IsImage { M := bytes "video" } = some false ∧
    Kind1063Metadata.IsVideo { M := bytes "video" } = some true ∧
    Split 0x2F (bytes "video") = [bytes "video"] ∧
    kind1063Media { M := bytes "video", URL := bytes "https://example.com/v" } = none := by
  decide

/-! ## Claims on `cropToSquare` -/

/-- C11 as stated fails: a picture of width 4 and height 2 whose bounds start at
(10, 10), red at every point. The cropped image has side 2, but its pixel at (0, 0) is
the zero colour, read by `At` at (1, 0) outside the bounds of the source; the source
pixel at the offset (1, 0) from the top-left corner, the point (11, 10), is red. -/
theorem cropToSquare_ignores_origin :
    (cropToSquare (uniformPicture ⟨10, 10, 14, 12⟩ ⟨255, 0, 0, 255⟩)).Bounds = ⟨0, 0, 2, 2⟩ ∧
    (cropToSquare (uniformPicture ⟨10, 10, 14, 12⟩ ⟨255, 0, 0, 255⟩)).At 0 0 = RGBA.zero ∧
    (uniformPicture ⟨10, 10, 14, 12⟩ ⟨255, 0, 0, 255⟩).At
        (10 + 0 + (Int.tdiv (4 - 2) 2)) (10 + 0 + (Int.tdiv (2 - 2) 2))
      = ⟨255, 0, 0, 255⟩ ∧
    (cropToSquare (uniformPicture ⟨10, 10, 14, 12⟩ ⟨255, 0, 0, 255⟩)).At 0 0
      ≠ (uniformPicture ⟨10, 10, 14, 12⟩ ⟨255, 0, 0, 255⟩).At
        (10 + 0 + (Int.tdiv (4 - 2) 2)) (10 + 0 + (Int.tdiv (2 - 2) 2)) := by
  decide

/-- C11 as amended. For a source image of positive width `W` and height `H` whose
bounds start at (0, 0), `cropToSquare` returns an image with the bounds of the square
of side `s = min(W, H)` at the origin, whose pixel at `(x, y)`, for `0 ≤ x, y < s`, is
the source pixel at the offset `((W - s) / 2, (H - s) / 2)` from the top-left corner of
the source, a point inside the bounds of the source. -/
theorem cropToSquare_centred_window (img : Image)
    (hw : 0 < img.Bounds.Dx) (hh : 0 < img.Bounds.Dy)
    (hx0 : img.Bounds.MinX = 0) (hy0 : img.Bounds.MinY = 0) :
    (cropToSquare img).Bounds
        = ⟨0, 0, min img.Bounds.Dx img.Bounds.Dy, min img.Bounds.Dx img.Bounds.Dy⟩ ∧
    ∀ x y : Int, 0 ≤ x → x < min img.Bounds.Dx img.Bounds.Dy →
      0 ≤ y → y < min img.Bounds.Dx img.Bounds.Dy →
      (cropToSquare img).At x y
        = img.At
            (img.Bounds.MinX + x + (img.Bounds.Dx - min img.Bounds.Dx img.Bounds.Dy).tdiv 2)
            (img.Bounds.MinY + y + (img.Bounds.Dy - min img.Bounds.Dx img.Bounds.Dy).tdiv 2) ∧
      img.Bounds.contains
          (img.Bounds.MinX + x + (img.Bounds.Dx - min img.Bounds.Dx img.Bounds.Dy).tdiv 2)
          (img.Bounds.MinY + y + (img.Bounds.Dy - min img.Bounds.Dx img.Bounds.Dy).tdiv 2)
        = true := by
  obtain ⟨hb, hat⟩ := cropToSquare_spec img (le_of_lt hw) (le_of_lt hh)
  refine ⟨hb, fun x y h1 h2 h3 h4 => ⟨?_, ?_⟩⟩
  · rw [hat, if_pos ⟨h1, h2, h3, h4⟩, hx0, hy0]
    simp only [zero_add]
  · have hmx : min img.Bounds.Dx img.Bounds.Dy ≤ img.Bounds.Dx := min_le_left _ _
    have hmy : min img.Bounds.Dx img.Bounds.Dy ≤ img.Bounds.Dy := min_le_right _ _
    have e1 : (img.Bounds.Dx - min img.Bounds.Dx img.Bounds.Dy).tdiv 2
        = (img.Bounds.Dx - min img.Bounds.Dx img.Bounds.Dy) / 2 :=
      Int.tdiv_eq_ediv (by omega) (by decide)
    have e2 : (img.Bounds.Dy - min img.Bounds.Dx img.Bounds.Dy).tdiv 2
        = (img.Bounds.Dy - min img.Bounds.Dx img.Bounds.Dy) / 2 :=
      Int.tdiv_eq_ediv (by omega) (by decide)
    rw [e1, e2]
    have hdx : img.Bounds.Dx = img.Bounds.MaxX - img.Bounds.MinX := rfl
    have hdy : img.Bounds.Dy = img.Bounds.MaxY - img.Bounds.MinY := rfl
    simp only [Rectangle.contains, decide_eq_true_eq]
    omega

/-- C11 as amended, at a concrete input: in the picture of width 4 and height 2 at
the origin that holds at `(x, y)` the colour with red `x` and green `y`, the side is 2
and the pixel (1, 1) of the cropped image is the source pixel (2, 1). -/
theorem cropToSquare_centred_window_witness :
    (cropToSquare ⟨⟨0, 0, 4, 2⟩, fun x y => ⟨x.toNat.toUInt8, y.toNat.toUInt8, 0, 255⟩⟩).At 1 1
        = (⟨2, 1, 0, 255⟩ : RGBA) ∧
      Rectangle.contains ⟨0, 0, 4, 2⟩ 2 1 = true :=
  (cropToSquare_centred_window
    ⟨⟨0, 0, 4, 2⟩, fun x y => ⟨x.toNat.toUInt8, y.toNat.toUInt8, 0, 255⟩⟩
    (by decide) (by decide) rfl rfl).2 1 1 (by decide) (by decide) (by decide) (by decide)

/-- C12 as stated fails: a square picture of side 2 whose bounds start at (5, 5), blue
at every point. The cropped image has side 2 and bounds at the origin, and its four
pixels are the zero colour, none identical to the blue pixel of the source. -/
theorem cropToSquare_square_not_noop :
    (cropToSquare (uniformPicture ⟨5, 5, 7, 7⟩ ⟨0, 0, 255, 255⟩)).Bounds = ⟨0, 0, 2, 2⟩ ∧
    (∀ x ∈ [(0 : Int), 1], ∀ y ∈ [(0 : Int), 1],
      (cropToSquare (uniformPicture ⟨5, 5, 7, 7⟩ ⟨0, 0, 255, 255⟩)).At x y = RGBA.zero ∧
      (uniformPicture ⟨5, 5, 7, 7⟩ ⟨0, 0, 255, 255⟩).At (5 + x) (5 + y)
        = ⟨0, 0, 255, 255⟩) := by
  decide

/-- C12 as amended. For a source image of positive width and height, applying
`cropToSquare` twice gives the same image as applying it once; and when the image is
square and its bounds start at (0, 0), `cropToSquare` is a no-op: the result has the
bounds of the source and every pixel inside them is identical to the pixel of the
source at the same point. -/
theorem cropToSquare_square_noop (img : Image)
    (hw : 0 < img.Bounds.Dx) (hh : 0 < img.Bounds.Dy) :
    cropToSquare (cropToSquare img) = cropToSquare img ∧
      (img.Bounds.Dx = img.Bounds.Dy → img.Bounds.MinX = 0 → img.Bounds.MinY = 0 →
        (cropToSquare img).Bounds = img.Bounds ∧
        ∀ x y : Int, img.Bounds.contains x y = true →
          (cropToSquare img).At x y = img.At x y) := by
  refine ⟨cropToSquare_idempotent img (le_of_lt hw) (le_of_lt hh), ?_⟩
  intro hsq hx0 hy0
  obtain ⟨hb, hat⟩ := cropToSquare_spec img (le_of_lt hw) (le_of_lt hh)
  have hmin : min img.Bounds.Dx img.Bounds.Dy = img.Bounds.Dx := by
    rw [← hsq]; exact min_self _
  have hdx : img.Bounds.Dx = img.Bounds.MaxX := by
    simp only [Rectangle.Dx, hx0, sub_zero]
  have hdy : img.Bounds.Dy = img.Bounds.MaxY := by
    simp only [Rectangle.Dy, hy0, sub_zero]
  refine ⟨?_, fun x y hin => ?_⟩
  · rw [hb, hmin]
    show (⟨0, 0, img.Bounds.Dx, img.Bounds.Dx⟩ : Rectangle)
      = ⟨img.Bounds.MinX, img.Bounds.MinY, img.Bounds.MaxX, img.Bounds.MaxY⟩
    rw [Rectangle.mk.injEq]
    exact ⟨hx0.symm, hy0.symm, hdx, by rw [hsq]; exact hdy⟩
  · rw [hat, hmin]
    simp only [Rectangle.contains, decide_eq_true_eq] at hin
    have hc : 0 ≤ x ∧ x < img.Bounds.Dx ∧ 0 ≤ y ∧ y < img.Bounds.Dx := by
      refine ⟨by omega, by omega, by omega, by omega⟩
    rw [if_pos hc]
    simp only [sub_self, Int.zero_tdiv, add_zero, ← hsq]

/-- C12 as amended, at a concrete input: the square picture of side 2 at the origin
that holds at `(x, y)` the colour with red `x` and green `y`. -/
theorem cropToSquare_square_noop_witness :
    cropToSquare (cropToSquare
        ⟨⟨0, 0, 2, 2⟩, fun x y => ⟨x.toNat.toUInt8, y.toNat.toUInt8, 0, 255⟩⟩)
      = cropToSquare ⟨⟨0, 0, 2, 2⟩, fun x y => ⟨x.toNat.toUInt8, y.toNat.toUInt8, 0, 255⟩⟩ ∧
    (cropToSquare
        ⟨⟨0, 0, 2, 2⟩, fun x y => ⟨x.toNat.toUInt8, y.toNat.toUInt8, 0, 255⟩⟩).Bounds
      = ⟨0, 0, 2, 2⟩ ∧
    (cropToSquare
        ⟨⟨0, 0, 2, 2⟩, fun x y => ⟨x.toNat.toUInt8, y.toNat.toUInt8, 0, 255⟩⟩).At 1 0
      = (⟨1, 0, 0, 255⟩ : RGBA) :=
  ⟨(cropToSquare_square_noop
      ⟨⟨0, 0, 2, 2⟩, fun x y => ⟨x.toNat.toUInt8, y.toNat.toUInt8, 0, 255⟩⟩
      (by decide) (by decide)).1,
    ((cropToSquare_square_noop
      ⟨⟨0, 0, 2, 2⟩, fun x y => ⟨x.toNat.toUInt8, y.toNat.toUInt8, 0, 255⟩⟩
      (by decide) (by decide)).2 rfl rfl rfl).1,
    ((cropToSquare_square_noop
      ⟨⟨0, 0, 2, 2⟩, fun x y => ⟨x.toNat.toUInt8, y.toNat.toUInt8, 0, 255⟩⟩
      (by decide) (by decide)).2 rfl rfl rfl).2 1 0 (by decide)⟩

/-! ## Claim on `roundImage` -/

set_option maxRecDepth 100000 in
/-- C13 as stated fails, at two inputs. First, a 4 by 4 picture at the origin whose
pixels are half-transparent red (alpha 128): the pixel (1, 1) lies inside the circle
and the mask is opaque there, yet the result has alpha 128 at (1, 1), the alpha of the
source, not full alpha. Second, an opaque red 4 by 4 picture whose bounds start at
(4, 4): the pixel (5, 5) lies inside the circle centred in the picture, yet the result
is the zero colour there, because nothing is left of the rectangle after clipping. -/
theorem roundImage_alpha_not_full :
    pixelInsideCircle 4 4 1 1 = true ∧
    coverageMask 4 4 1 1 = ⟨0, 0, 0, 255⟩ ∧
    (roundImage coverageMask (uniformColorPicture ⟨0, 0, 4, 4⟩ ⟨128, 0, 0, 128⟩)).At 1 1
      = ⟨128, 0, 0, 128⟩ ∧
    ((roundImage coverageMask (uniformColorPicture ⟨0, 0, 4, 4⟩ ⟨128, 0, 0, 128⟩)).At 1 1).A
      ≠ 255 ∧
    (roundImage coverageMask (uniformColorPicture ⟨4, 4, 8, 8⟩ ⟨255, 0, 0, 255⟩)).Bounds
      = ⟨4, 4, 8, 8⟩ ∧
    (roundImage coverageMask (uniformColorPicture ⟨4, 4, 8, 8⟩ ⟨255, 0, 0, 255⟩)).At 5 5
      = RGBA.zero := by
  decide

/-- C13 as amended. For a source image of positive width and height whose bounds
start at (0, 0), and for whatever mask the library has drawn, `roundImage` returns an
image with the bounds of the source in which every pixel where the mask has alpha 0 is
the zero colour, so has alpha 0, and every pixel where the mask is opaque holds the
colour channels and the alpha of the source pixel, in the RGBA colour model; at every
pixel the alpha is at most the alpha of the source pixel. -/
theorem roundImage_through_mask (circleMask : Int → Int → Int → Int → RGBA)
    (img : ColorImage) (hw : 0 < img.Bounds.Dx) (hh : 0 < img.Bounds.Dy)
    (hx0 : img.Bounds.MinX = 0) (hy0 : img.Bounds.MinY = 0) :
    (roundImage circleMask img).Bounds = img.Bounds ∧
    ∀ x y : Int, img.Bounds.contains x y = true →
      ((circleMask img.Bounds.Dx img.Bounds.Dy x y).A = 0 →
        (roundImage circleMask img).At x y = RGBA.zero) ∧
      ((circleMask img.Bounds.Dx img.Bounds.Dy x y).A = 255 →
        (roundImage circleMask img).At x y = rgbaModel (img.At x y)) ∧
      ((roundImage circleMask img).At x y).A.toNat ≤ (rgbaModel (img.At x y)).A.toNat := by
  obtain ⟨hb, hat⟩ := roundImage_spec circleMask img hw hh hx0 hy0
  refine ⟨hb, fun x y hin => ?_⟩
  rw [hat, if_pos hin, RGBA.toColor_a]
  refine ⟨fun h0 => ?_, fun h255 => ?_, ?_⟩
  · rw [h0]
    exact overPixel_zero_mask _
  · rw [h255]
    exact overPixel_full_mask _
  · have h := UInt8.toNat_lt (circleMask img.Bounds.Dx img.Bounds.Dy x y).A
    exact overPixel_alpha_le _ _ (by omega)

set_option maxRecDepth 100000 in
/-- C13 as amended, at a concrete input: a 6 by 4 picture at the origin, half-transparent
red. At (0, 0), outside the circle, the mask is transparent and the result is the zero
colour; at (2, 1), inside the circle, the mask is opaque and the result is the source
pixel with its alpha 128. -/
theorem roundImage_through_mask_witness :
    coverageMask 6 4 0 0 = RGBA.zero ∧
    (roundImage coverageMask (uniformColorPicture ⟨0, 0, 6, 4⟩ ⟨128, 0, 0, 128⟩)).At 0 0
      = RGBA.zero ∧
    coverageMask 6 4 2 1 = ⟨0, 0, 0, 255⟩ ∧
    (roundImage coverageMask (uniformColorPicture ⟨0, 0, 6, 4⟩ ⟨128, 0, 0, 128⟩)).At 2 1
      = rgbaModel ((uniformColorPicture ⟨0, 0, 6, 4⟩ ⟨128, 0, 0, 128⟩).At 2 1) ∧
    rgbaModel ((uniformColorPicture ⟨0, 0, 6, 4⟩ ⟨128, 0, 0, 128⟩).At 2 1)
      = ⟨128, 0, 0, 128⟩ :=
  ⟨by decide,
    ((roundImage_through_mask coverageMask
      (uniformColorPicture ⟨0, 0, 6, 4⟩ ⟨128, 0, 0, 128⟩)
      (by decide) (by decide) rfl rfl).2 0 0 (by decide)).1 (by decide),
    by decide,
    ((roundImage_through_mask coverageMask
      (uniformColorPicture ⟨0, 0, 6, 4⟩ ⟨128, 0, 0, 128⟩)
      (by decide) (by decide) rfl rfl).2 2 1 (by decide)).2.1 (by decide),
    by decide⟩

end Njump
